import Mathlib

/-! Music playlist on a circular singly linked list.

A shallow embedding of `src/music playlist/code.cpp`.

* Memory is a partial map from addresses to `Song` records; address `0` is
  `NULL`.  Reading or writing through an address that holds no live record,
  and freeing a non-null address that holds none, is undefined behaviour and
  makes the embedded function return `none`.
* The two globals `head` and `current` together with the memory form the
  `State`.
* Every `while` / `do … while` loop is a function recursive on a fuel
  argument; running out of fuel also yields `none`.
* `malloc` is an environment choice: `addSong` receives the address that
  `malloc` returned (`NULL` when allocation fails).
* What the program prints is returned as a list of `Out` records, one
  constructor per `printf` format string.
* Of `main`, the handler of menu choice 1 is embedded (`addCase`); the
  standard input is the list of bytes not yet read.
-/

namespace Playlist

/-! ## Data model -/

/-- An address; `0` is the null pointer. -/
abbrev Ptr := Nat

/-- The null pointer. -/
def NULL : Ptr := 0

/-- `#define TITLE_LEN 100`. -/
def TITLE_LEN : Nat := 100

/-- `struct Song { char title[TITLE_LEN]; struct Song *next; }`: the title
array as a list of bytes and the `next` pointer. -/
structure Song where
  title : List Nat
  next : Ptr
deriving DecidableEq, Repr

/-- The memory: which addresses hold a live `Song`. -/
abbrev Heap := Ptr → Option Song

/-- The program state: the memory and the globals `head` and `current`. -/
structure State where
  heap : Heap
  head : Ptr
  current : Ptr

/-- The state at program start: nothing allocated, `head = current = NULL`. -/
def init : State := { heap := fun _ => none, head := NULL, current := NULL }

/-- One record per line the program prints. -/
inductive Out where
  /-- The line `Error: memory allocation failed.` -/
  | allocFailed
  /-- The line `Added: "%s"` -/
  | added (title : List Nat)
  /-- The line `Playlist is empty!` -/
  | playlistEmpty
  /-- The line `Removed: "%s"` -/
  | removed (title : List Nat)
  /-- The line `Song not found: "%s"` -/
  | notFound (title : List Nat)
  /-- The line `--- PLAYLIST ---` -/
  | header
  /-- The line `-> %s  [CURRENT]` -/
  | currentLine (title : List Nat)
  /-- The line `   %s` -/
  | plainLine (title : List Nat)
  /-- The line `----------------` -/
  | footer
  /-- The line `No songs to play!` -/
  | noSongs
  /-- The line `Now playing: %s` -/
  | nowPlaying (title : List Nat)
deriving DecidableEq, Repr

/-! ## C strings -/

/-- The C string held in a byte buffer: the bytes before the first NUL. -/
def cstr (a : List Nat) : List Nat := a.takeWhile (fun b => b ≠ 0)

/-- `strncpy(dst, src, n)`: the `n` bytes written to `dst`, namely the string
in `src` cut to `n` bytes and padded with NUL up to `n` bytes. -/
def strncpy (src : List Nat) (n : Nat) : List Nat :=
  (cstr src).take n ++ List.replicate (n - (cstr src).length) 0

/-- `strcmp(a, b)` is `0` exactly when the two C strings are equal; only the
comparison with `0` is used by the program. -/
def strcmp (a b : List Nat) : Int := if cstr a = cstr b then 0 else 1

/-! ## Memory access -/

/-- The store `p->next = q`. -/
def setNext (h : Heap) (p q : Ptr) : Option Heap :=
  match h p with
  | none => none
  | some n => some (Function.update h p (some { n with next := q }))

/-- The call `free(p)`: nothing happens for `NULL`; otherwise `p` must hold a
live record, which is released. -/
def free (h : Heap) (p : Ptr) : Option Heap :=
  if p = NULL then some h
  else
    match h p with
    | none => none
    | some _ => some (Function.update h p none)

/-! ## The operations -/

/-- `create_song`, given the address `node` returned by `malloc`. -/
def create_song (node : Ptr) (title : List Nat) (h : Heap) : Ptr × Heap :=
  if node = NULL then (NULL, h)
  else
    (node, Function.update h node
      (some { title := strncpy title (TITLE_LEN - 1) ++ [0], next := NULL }))

/-- The loop `while (temp->next != target) temp = temp->next;`, which occurs
with `target = head` in `addSong` and `removeSong` and with
`target = current` in `playPrevious`.  Returns the final `temp`. -/
def findPred : Nat → Heap → Ptr → Ptr → Option Ptr
  | 0, _, _, _ => none
  | fuel + 1, h, target, temp =>
    match h temp with
    | none => none
    | some node =>
      if node.next ≠ target then findPred fuel h target node.next else some temp

/-- `addSong(title)`, where `node` is what `malloc` returns. -/
def addSong (fuel : Nat) (node : Ptr) (title : List Nat) (s : State) :
    Option (State × List Out) :=
  let (newSong, h) := create_song node title s.heap
  if newSong = NULL then some (s, [Out.allocFailed])
  else if s.head = NULL then
    -- head = newSong; newSong->next = head; current = head;
    match setNext h newSong newSong with
    | none => none
    | some h1 =>
      match h1 newSong with
      | none => none
      | some n =>
        some ({ heap := h1, head := newSong, current := newSong }, [Out.added (cstr n.title)])
  else
    match findPred fuel h s.head s.head with
    | none => none
    | some temp =>
      match setNext h temp newSong with
      | none => none
      | some h1 =>
        match setNext h1 newSong s.head with
        | none => none
        | some h2 =>
          match h2 newSong with
          | none => none
          | some n =>
            some ({ s with heap := h2 }, [Out.added (cstr n.title)])

/-- The `do … while (temp != head)` loop of `removeSong`, entered with the
loop variables `temp` and `prev`; `inner` is the fuel of the inner loop that
looks for the last node. -/
def removeLoop (inner : Nat) (title : List Nat) :
    Nat → State → Ptr → Ptr → Option (State × List Out)
  | 0, _, _, _ => none
  | fuel + 1, s, temp, prev =>
    match s.heap temp with
    | none => none
    | some node =>
      -- the part of the body after the three `if`s
      let continue_ : Option (State × List Out) :=
        if node.next ≠ s.head then removeLoop inner title fuel s node.next temp
        else some (s, [Out.notFound (cstr title)])
      if strcmp node.title title = 0 then
        if temp = s.head then
          match s.heap s.head with
          | none => none
          | some hd =>
            if hd.next = s.head then
              -- only one node in the list
              match free s.heap s.head with
              | none => none
              | some h1 =>
                some ({ heap := h1, head := NULL, current := NULL },
                      [Out.removed (cstr title)])
            else
              -- removing the head of a list with more than one node
              match findPred inner s.heap s.head s.head with
              | none => none
              | some last =>
                let head1 := hd.next
                match setNext s.heap last head1 with
                | none => none
                | some h1 =>
                  let current1 := if s.current = temp then head1 else s.current
                  match free h1 temp with
                  | none => none
                  | some h2 =>
                    some ({ heap := h2, head := head1, current := current1 },
                          [Out.removed (cstr title)])
        else if prev ≠ NULL then
          -- removing a node other than the head
          match setNext s.heap prev node.next with
          | none => none
          | some h1 =>
            match h1 temp with
            | none => none
            | some node1 =>
              let current1 := if s.current = temp then node1.next else s.current
              match free h1 temp with
              | none => none
              | some h2 =>
                some ({ s with heap := h2, current := current1 },
                      [Out.removed (cstr title)])
        else continue_
      else continue_

/-- `removeSong(title)`. -/
def removeSong (fuel : Nat) (title : List Nat) (s : State) :
    Option (State × List Out) :=
  if s.head = NULL then some (s, [Out.playlistEmpty])
  else removeLoop fuel title fuel s s.head NULL

/-- The `do … while (temp != head)` loop of `displayPlaylist`: the lines
printed from `temp` on. -/
def displayLoop : Nat → State → Ptr → Option (List Out)
  | 0, _, _ => none
  | fuel + 1, s, temp =>
    match s.heap temp with
    | none => none
    | some node =>
      let line := if temp = s.current then Out.currentLine (cstr node.title)
                  else Out.plainLine (cstr node.title)
      if node.next ≠ s.head then (displayLoop fuel s node.next).map (fun r => line :: r)
      else some [line]

/-- `displayPlaylist()`. -/
def displayPlaylist (fuel : Nat) (s : State) : Option (State × List Out) :=
  if s.head = NULL then some (s, [Out.playlistEmpty])
  else
    match displayLoop fuel s s.head with
    | none => none
    | some ls => some (s, [Out.header] ++ ls ++ [Out.footer])

/-- `playCurrent()`. -/
def playCurrent (s : State) : Option (State × List Out) :=
  if s.current = NULL then some (s, [Out.noSongs])
  else
    match s.heap s.current with
    | none => none
    | some node => some (s, [Out.nowPlaying (cstr node.title)])

/-- `playNext()`. -/
def playNext (s : State) : Option (State × List Out) :=
  if s.current = NULL then some (s, [Out.noSongs])
  else
    match s.heap s.current with
    | none => none
    | some node => playCurrent { s with current := node.next }

/-- `playPrevious()`. -/
def playPrevious (fuel : Nat) (s : State) : Option (State × List Out) :=
  if s.current = NULL then some (s, [Out.noSongs])
  else
    match s.heap s.head with
    | none => none
    | some hd =>
      if hd.next = s.head then playCurrent s
      else
        match findPred fuel s.heap s.current s.head with
        | none => none
        | some temp => playCurrent { s with current := temp }

/-- The loop `while (temp != head) { next = temp->next; free(temp); temp = next; }`
of `freePlaylist`: the memory after the loop. -/
def freeLoop : Nat → Heap → Ptr → Ptr → Option Heap
  | 0, _, _, _ => none
  | fuel + 1, h, head, temp =>
    if temp ≠ head then
      match h temp with
      | none => none
      | some node =>
        match free h temp with
        | none => none
        | some h1 => freeLoop fuel h1 head node.next
    else some h

/-- `freePlaylist()`. -/
def freePlaylist (fuel : Nat) (s : State) : Option (State × List Out) :=
  if s.head = NULL then some (s, [])
  else
    match s.heap s.head with
    | none => none
    | some hd =>
      match freeLoop fuel s.heap s.head hd.next with
      | none => none
      | some h1 =>
        match free h1 s.head with
        | none => none
        | some h2 => some ({ heap := h2, head := NULL, current := NULL }, [])

/-! ## Runs of the program -/

/-- A call of one of the playlist operations.  For `addSong`, `node` is the
address `malloc` returns in that call. -/
inductive Call where
  | addSong (node : Ptr) (title : List Nat)
  | removeSong (title : List Nat)
  | displayPlaylist
  | playCurrent
  | playNext
  | playPrevious
  | freePlaylist
deriving DecidableEq, Repr

/-- Run one call. -/
def exec (fuel : Nat) : Call → State → Option (State × List Out)
  | .addSong node title, s => addSong fuel node title s
  | .removeSong title, s => removeSong fuel title s
  | .displayPlaylist, s => displayPlaylist fuel s
  | .playCurrent, s => playCurrent s
  | .playNext, s => playNext s
  | .playPrevious, s => playPrevious fuel s
  | .freePlaylist, s => freePlaylist fuel s

/-- What `malloc` may return: `NULL`, or an address that holds no live record. -/
def MallocOk (s : State) : Call → Prop
  | .addSong node _ => node ≠ NULL → s.heap node = none
  | _ => True

/-- The states the program can be in: those obtained from `init` by finitely
many calls that return. -/
inductive Reachable : State → Prop where
  | init : Reachable init
  | step {s s1 : State} {out : List Out} (c : Call) (fuel : Nat) :
      Reachable s → MallocOk s c → exec fuel c s = some (s1, out) → Reachable s1

/-- Follow `next` links `k` times from `p`. -/
def iterNext (h : Heap) : Nat → Ptr → Option Ptr
  | 0, p => some p
  | k + 1, p =>
    match h p with
    | none => none
    | some n => iterNext h k n.next

/-- The title stored at `p`, as a C string (empty when `p` is not live). -/
def titleAt (h : Heap) (p : Ptr) : List Nat :=
  match h p with
  | none => []
  | some n => cstr n.title

/-- The line `displayPlaylist` prints for the node `p`. -/
def displayLine (s : State) (p : Ptr) : Out :=
  if p = s.current then Out.currentLine (titleAt s.heap p) else Out.plainLine (titleAt s.heap p)

/-- Whether `malloc` may return what the call says is decidable. -/
instance decMallocOk (s : State) (c : Call) : Decidable (MallocOk s c) := by
  cases c <;> unfold MallocOk <;> infer_instance

/-- Run a list of calls in turn from `s`, collecting what is printed.  The
run is `none` when a call does not return or when a call names an address
that `malloc` cannot return at that point. -/
def run (fuel : Nat) : List Call → State → Option (State × List Out)
  | [], s => some (s, [])
  | c :: cs, s =>
    if MallocOk s c then
      match exec fuel c s with
      | none => none
      | some (s1, out) =>
        match run fuel cs s1 with
        | none => none
        | some (s2, out2) => some (s2, out ++ out2)
    else none

/-- The state after running the calls `cs` from program start (program start
itself when the run is `none`). -/
def stateAfter (fuel : Nat) (cs : List Call) : State :=
  match run fuel cs init with
  | none => init
  | some (s, _) => s

/-- What a run from program start prints. -/
def outputOf (fuel : Nat) (cs : List Call) : Option (List Out) :=
  (run fuel cs init).map Prod.snd

/-- Executable form of `Seg`, defined further down: following `next` links
from `p` visits exactly `l` and arrives at `q`. -/
def segCheck (h : Heap) : Ptr → List Ptr → Ptr → Bool
  | p, [], q => decide (p = q)
  | p, a :: l, q =>
    decide (p = a) &&
      match h a with
      | none => false
      | some n => segCheck h n.next l q

/-- The title kept for an input title: its first `TITLE_LEN - 1` bytes. -/
def stored (title : List Nat) : List Nat := (cstr title).take (TITLE_LEN - 1)

/-- The calls that add the given titles in turn, each paired with the address
`malloc` returns for it. -/
def addCalls (adds : List (Ptr × List Nat)) : List Call :=
  adds.map (fun a => Call.addSong a.1 a.2)

/-- What `displayPlaylist` is expected to print for a playlist holding the
given input titles in this order, the cursor being on the first. -/
def expectedDisplay : List (List Nat) → List Out
  | [] => [Out.playlistEmpty]
  | t :: ts =>
    [Out.header] ++ Out.currentLine (stored t) :: ts.map (fun u => Out.plainLine (stored u))
      ++ [Out.footer]

/-! ## Teardown: the calls of `free` -/

/-- The arguments of the calls of `free` made by the loop of `freePlaylist`
(see `freeLoop`), in the order of the calls. -/
def freeLoopCalls : Nat → Heap → Ptr → Ptr → Option (List Ptr)
  | 0, _, _, _ => none
  | fuel + 1, h, head, temp =>
    if temp ≠ head then
      match h temp with
      | none => none
      | some node =>
        match free h temp with
        | none => none
        | some h1 => (freeLoopCalls fuel h1 head node.next).map (fun r => temp :: r)
    else some []

/-- The arguments of the calls of `free` made by `freePlaylist()`, in the
order of the calls: those of the loop, then `head`. -/
def freePlaylistCalls (fuel : Nat) (s : State) : Option (List Ptr) :=
  if s.head = NULL then some []
  else
    match s.heap s.head with
    | none => none
    | some hd => (freeLoopCalls fuel s.heap s.head hd.next).map (fun r => r ++ [s.head])

/-! ## The console handler of menu choice 1 -/

/-- What `fgets` takes from the input: at most `k` bytes, stopping after a
newline (byte 10) or at the end of the input.  Returns the bytes taken and the
input that is left. -/
def readLine : Nat → List Nat → List Nat × List Nat
  | 0, rest => ([], rest)
  | _ + 1, [] => ([], [])
  | k + 1, b :: rest =>
    if b = 10 then ([10], rest)
    else ((b :: (readLine k rest).1), (readLine k rest).2)

/-- `fgets(buf, n, stdin)`: `none` (the C `NULL`) at the end of the input,
otherwise the buffer written, NUL terminator included, and the input left. -/
def fgets (n : Nat) (stdin : List Nat) : Option (List Nat × List Nat) :=
  if stdin = [] then none
  else some ((readLine (n - 1) stdin).1 ++ [0], (readLine (n - 1) stdin).2)

/-- `strcspn(a, "\n")`: the number of bytes of the C string in `a` before its
first newline. -/
def strcspnNewline (a : List Nat) : Nat := ((cstr a).takeWhile (fun b => b ≠ 10)).length

/-- `strlen(a)`. -/
def strlen (a : List Nat) : Nat := (cstr a).length

/-- One record per line the menu handler prints, next to what the playlist
operations print. -/
inductive MenuOut where
  /-- The prompt `Enter song title: ` -/
  | enterTitle
  /-- The line `Input error.` -/
  | inputError
  /-- The line `Empty title; not added.` -/
  | emptyTitle
  /-- A line printed by a playlist operation. -/
  | core (o : Out)
deriving DecidableEq, Repr

/-- `case 1` of the `switch` in `main`: prompt, read a line, strip the
newline, decline an empty title, otherwise call `addSong`.  `node` is what
`malloc` returns inside `addSong`.  Returns the state, what was printed and
the input left. -/
def addCase (fuel : Nat) (node : Ptr) (stdin : List Nat) (s : State) :
    Option (State × List MenuOut × List Nat) :=
  match fgets TITLE_LEN stdin with
  | none => some (s, [MenuOut.enterTitle, MenuOut.inputError], stdin)
  | some (buf, rest) =>
    -- input[strcspn(input, "\n")] = 0
    let input := buf.set (strcspnNewline buf) 0
    if strlen input = 0 then some (s, [MenuOut.enterTitle, MenuOut.emptyTitle], rest)
    else
      match addSong fuel node input s with
      | none => none
      | some (s1, out) => some (s1, MenuOut.enterTitle :: out.map MenuOut.core, rest)

/-- A title is blank when it is made of spaces (byte 32) and tabs (byte 9)
only; the empty title is blank. -/
def Blank (title : List Nat) : Prop := ∀ b ∈ title, b = 32 ∨ b = 9

/-! ## Sample runs -/

/-- The title `A`. -/
def titleA : List Nat := [65]

/-- The title `B`. -/
def titleB : List Nat := [66]

/-- The title `C`. -/
def titleC : List Nat := [67]

/-- The title `X`. -/
def titleX : List Nat := [88]

/-- Add `A`, `B` and `C`, allocated at the addresses 1, 2 and 3. -/
def callsABC : List Call :=
  [Call.addSong 1 titleA, Call.addSong 2 titleB, Call.addSong 3 titleC]

/-- The playlist `[A, B, C]` with the cursor on `A`. -/
def stateABC : State := stateAfter 3 callsABC

/-- The playlist `[A, B, C]` with the cursor on `B`. -/
def stateB : State := stateAfter 3 (callsABC ++ [Call.playNext])

/-- The playlist `[A, C]` with the cursor on `C`. -/
def stateAC : State := stateAfter 3 (callsABC ++ [Call.playNext, Call.removeSong titleB])

/-- The playlist `[A, A, B]` (addresses 1, 2, 3) with the cursor on the second
`A`. -/
def stateAAB : State :=
  stateAfter 3 [Call.addSong 1 titleA, Call.addSong 2 titleA, Call.addSong 3 titleB,
    Call.playNext]

/-- The playlist `[A]`. -/
def stateA : State := stateAfter 1 [Call.addSong 1 titleA]

/-! ## The shape of the memory -/

/-- `Seg h p l q`: starting at `p` and following `next` links, one visits
exactly the nodes `l`, in this order, and arrives at `q`. -/
def Seg (h : Heap) : Ptr → List Ptr → Ptr → Prop
  | p, [], q => p = q
  | p, a :: l, q => p = a ∧ ∃ n, h a = some n ∧ Seg h n.next l q

/-- `IsPlaylist s l`: the live records of `s` are exactly the nodes `l`,
without repetition; they form one circle in the order `l`, beginning at
`head`; and `current` is one of them (or `NULL` when there is none). -/
structure IsPlaylist (s : State) (l : List Ptr) : Prop where
  nodup : l.Nodup
  null_free : s.heap NULL = none
  live : ∀ p, p ∈ l ↔ s.heap p ≠ none
  head_eq : s.head = l.headD NULL
  cycle : Seg s.heap s.head l s.head
  current_mem : if l = [] then s.current = NULL else s.current ∈ l

/-! ## Facts about list segments and the scanning loop -/

@[simp] theorem seg_nil {h : Heap} {p q : Ptr} : Seg h p [] q ↔ p = q := Iff.rfl

@[simp] theorem seg_cons {h : Heap} {p a q : Ptr} {l : List Ptr} :
    Seg h p (a :: l) q ↔ p = a ∧ ∃ n, h a = some n ∧ Seg h n.next l q := Iff.rfl

theorem free_of_lookup {h : Heap} {p : Ptr} {n : Song} (hn : h p = some n) (hp : p ≠ NULL) :
    free h p = some (Function.update h p none) := by
  simp [free, hp, hn]

theorem seg_append {h : Heap} {l1 l2 : List Ptr} {p q : Ptr} :
    Seg h p (l1 ++ l2) q ↔ ∃ m, Seg h p l1 m ∧ Seg h m l2 q := by
  induction l1 generalizing p with
  | nil => simp
  | cons a l1 ih =>
    simp only [List.cons_append, seg_cons, ih]
    constructor
    · rintro ⟨rfl, n, hn, m, h1, h2⟩
      exact ⟨m, ⟨rfl, n, hn, h1⟩, h2⟩
    · rintro ⟨m, ⟨rfl, n, hn, h1⟩, h2⟩
      exact ⟨rfl, n, hn, m, h1, h2⟩

theorem seg_congr {h h1 : Heap} {l : List Ptr} {p q : Ptr}
    (hag : ∀ a ∈ l, h1 a = h a) (hs : Seg h p l q) : Seg h1 p l q := by
  induction l generalizing p with
  | nil => simpa using hs
  | cons a l ih =>
    obtain ⟨rfl, n, hn, hr⟩ := hs
    refine ⟨rfl, n, ?_, ih (fun b hb => hag b (List.mem_cons_of_mem _ hb)) hr⟩
    rw [hag _ (List.mem_cons_self _ _)]; exact hn

theorem seg_start {h : Heap} {a : Ptr} {l : List Ptr} {p q : Ptr}
    (hs : Seg h p (a :: l) q) : p = a := hs.1

theorem findPred_mono {h : Heap} {t : Ptr} {n m : Nat} {p r : Ptr}
    (hle : n ≤ m) (hf : findPred n h t p = some r) : findPred m h t p = some r := by
  induction n generalizing m p with
  | zero => simp [findPred] at hf
  | succ n ih =>
    obtain ⟨m, rfl⟩ : ∃ k, m = k + 1 := ⟨m - 1, by omega⟩
    simp only [findPred] at hf ⊢
    split at hf
    · simp at hf
    · rename_i node hnode
      by_cases hc : node.next = t
      · simpa [hc] using hf
      · simp only [ne_eq, hc, not_false_eq_true, if_true] at hf ⊢
        exact ih (by omega) hf

theorem findPred_spec {h : Heap} {t : Ptr} (m : List Ptr) (x : Ptr) {p : Ptr} {fuel : Nat}
    (hs : Seg h p (m ++ [x]) t) (ht : t ∉ (m ++ [x]).tail) (hf : m.length < fuel) :
    findPred fuel h t p = some x := by
  induction m generalizing p fuel with
  | nil =>
    obtain ⟨fuel, rfl⟩ : ∃ k, fuel = k + 1 := ⟨fuel - 1, by simp at hf; omega⟩
    obtain ⟨rfl, n, hn, hq⟩ := hs
    simp only [seg_nil] at hq
    simp [findPred, hn, hq]
  | cons a m ih =>
    obtain ⟨fuel, rfl⟩ : ∃ k, fuel = k + 1 := ⟨fuel - 1, by simp at hf; omega⟩
    obtain ⟨rfl, n, hn, hq⟩ := hs
    have hne : n.next ≠ t := by
      intro he
      apply ht
      cases m with
      | nil => simp at hq; simp [← he, hq.1]
      | cons b m => simp at hq; simp [← he, hq.1]
    simp only [findPred, hn, hne, ne_eq, not_false_eq_true, if_true]
    apply ih hq
    · intro hmem; exact ht (by simpa using List.mem_of_mem_tail hmem)
    · simpa using hf

/-! ## Adding a song -/

theorem IsPlaylist.ne_null {s : State} {l : List Ptr} (hp : IsPlaylist s l) {p : Ptr}
    (hm : p ∈ l) : p ≠ NULL := by
  rintro rfl
  exact (hp.live _).1 hm hp.null_free

theorem IsPlaylist.lookup {s : State} {l : List Ptr} (hp : IsPlaylist s l) {p : Ptr}
    (hm : p ∈ l) : ∃ n, s.heap p = some n :=
  Option.ne_none_iff_exists'.1 ((hp.live _).1 hm)

theorem IsPlaylist.head_cons {s : State} {a : Ptr} {r : List Ptr}
    (hp : IsPlaylist s (a :: r)) : s.head = a := by
  simpa using hp.head_eq

theorem IsPlaylist.head_nil {s : State} (hp : IsPlaylist s []) : s.head = NULL := by
  simpa using hp.head_eq

theorem IsPlaylist.current_nil {s : State} (hp : IsPlaylist s []) : s.current = NULL := by
  simpa using hp.current_mem

theorem IsPlaylist.current_in {s : State} {l : List Ptr} (hp : IsPlaylist s l) (hl : l ≠ []) :
    s.current ∈ l := by
  simpa [hl] using hp.current_mem

theorem IsPlaylist.heap_nil {s : State} (hp : IsPlaylist s []) (p : Ptr) : s.heap p = none := by
  by_contra hc
  exact absurd ((hp.live p).2 hc) (List.not_mem_nil _)

/-- The C string kept in a freshly created node is the given string cut to
`TITLE_LEN - 1` bytes. -/
theorem cstr_stored (t : List Nat) (n : Nat) :
    cstr (strncpy t n ++ [0]) = (cstr t).take n := by
  have hnz : ∀ b ∈ (cstr t).take n, (fun b => decide (b ≠ 0)) b = true := by
    intro b hb
    have := List.mem_takeWhile_imp (List.mem_of_mem_take hb)
    simpa using this
  unfold strncpy
  rw [cstr, List.append_assoc, List.takeWhile_append_of_pos hnz]
  have : List.takeWhile (fun b => decide (b ≠ 0)) (List.replicate (n - (cstr t).length) 0 ++ [0]) = [] := by
    cases hk : n - (cstr t).length with
    | zero => simp
    | succ k => simp [List.replicate_succ]
  rw [this, List.append_nil]

theorem addSong_null (fuel : Nat) (title : List Nat) (s : State) :
    addSong fuel NULL title s = some (s, [Out.allocFailed]) := by
  simp [addSong, create_song]

theorem addSong_empty {s : State} (hh : s.head = NULL) {node : Ptr} (hn : node ≠ NULL)
    (fuel : Nat) (title : List Nat) :
    addSong fuel node title s =
      some ({ heap := Function.update s.heap node
                (some { title := strncpy title (TITLE_LEN - 1) ++ [0], next := node }),
              head := node, current := node },
            [Out.added ((cstr title).take (TITLE_LEN - 1))]) := by
  unfold addSong create_song
  rw [if_neg hn]
  simp only [hn, if_false, hh, if_true, setNext, Function.update_same,
    Function.update_idem, cstr_stored]

theorem addSong_nonempty {s : State} (hh : s.head ≠ NULL) {node last : Ptr} (hn : node ≠ NULL)
    {fuel : Nat} {title : List Nat} {nl : Song}
    (hfind : findPred fuel (Function.update s.heap node
        (some { title := strncpy title (TITLE_LEN - 1) ++ [0], next := NULL })) s.head s.head
        = some last)
    (hlast : s.heap last = some nl) (hne : last ≠ node) :
    addSong fuel node title s =
      some ({ heap := Function.update (Function.update s.heap last
                        (some { nl with next := node })) node
                        (some { title := strncpy title (TITLE_LEN - 1) ++ [0], next := s.head }),
              head := s.head, current := s.current },
            [Out.added ((cstr title).take (TITLE_LEN - 1))]) := by
  unfold addSong create_song
  rw [if_neg hn]
  simp only [hn, if_false, hh, hfind, setNext,
    Function.update_noteq hne, hlast, Function.update_same,
    Function.update_noteq hne.symm, cstr_stored]
  rw [Function.update_comm hne.symm, Function.update_idem]

theorem addSong_spec {s : State} {l : List Ptr} (hp : IsPlaylist s l) {node : Ptr}
    (hn : node ≠ NULL) (hfresh : s.heap node = none) (title : List Nat) {fuel : Nat}
    (hf : l.length ≤ fuel) :
    ∃ s1, addSong fuel node title s = some (s1, [Out.added ((cstr title).take (TITLE_LEN - 1))]) ∧
      IsPlaylist s1 (l ++ [node]) ∧
      s1.heap node = some { title := strncpy title (TITLE_LEN - 1) ++ [0], next := s1.head } ∧
      (∀ p, p ≠ node → (s1.heap p).map Song.title = (s.heap p).map Song.title) ∧
      s1.head = (l ++ [node]).headD NULL ∧
      s1.current = if l = [] then node else s.current := by
  have hnl : node ∉ l := fun hm => (hp.live _).1 hm hfresh
  rcases List.eq_nil_or_concat l with rfl | ⟨m, last, hml⟩
  swap
  rw [List.concat_eq_append] at hml; subst hml
  swap
  · -- empty playlist
    have hh := hp.head_nil
    refine ⟨_, addSong_empty hh hn fuel title, ?_, ?_, ?_, ?_, ?_⟩
    · refine ⟨by simp, ?_, ?_, by simp, ?_, by simp⟩
      · simpa [Function.update_noteq (Ne.symm hn)] using hp.null_free
      · intro p
        by_cases hpn : p = node
        · subst hpn; simp
        · simp [hpn, Function.update_noteq hpn, hp.heap_nil]
      · simp
    · simp
    · intro p hpn; simp [Function.update_noteq hpn]
    · simp
    · simp
  · -- non-empty playlist
    have hhd : s.head ∈ m ++ [last] := by
      cases m with
      | nil => simp [hp.head_cons]
      | cons a m => simp [hp.head_cons]
    have hhn : s.head ≠ NULL := hp.ne_null hhd
    obtain ⟨nl, hnl'⟩ := hp.lookup (p := last) (by simp)
    have hlast_ne : last ≠ node := by rintro rfl; simp [hfresh] at hnl'
    have hnd := hp.nodup
    rw [List.nodup_append] at hnd
    have hlm : last ∉ m := fun hm => hnd.2.2 hm (by simp)
    have hseg := hp.cycle
    have hfind : findPred fuel (Function.update s.heap node
        (some { title := strncpy title (TITLE_LEN - 1) ++ [0], next := NULL })) s.head s.head
        = some last := by
      apply findPred_spec m last
      · apply seg_congr _ hseg
        intro a ha
        exact Function.update_noteq (fun h : a = node => hnl (h ▸ ha)) _ _
      · intro hm
        have := hp.nodup
        cases m with
        | nil => simp at hm
        | cons a m =>
          rw [hp.head_cons] at hm
          simp only [List.cons_append, List.tail_cons] at hm
          exact (List.nodup_cons.1 this).1 hm
      · simp at hf; omega
    obtain ⟨mid, hs1, hs2⟩ := seg_append.1 hseg
    simp only [seg_cons, seg_nil] at hs2
    obtain ⟨rfl, n', hn', hnext⟩ := hs2
    rw [hnl'] at hn'; cases hn'
    refine ⟨_, addSong_nonempty hhn hn hfind hnl' hlast_ne, ?_, ?_, ?_, ?_, ?_⟩
    · refine ⟨?_, ?_, ?_, ?_, ?_, ?_⟩
      · rw [List.nodup_append]
        refine ⟨hp.nodup, by simp, ?_⟩
        intro a ha hb
        simp only [List.mem_singleton] at hb
        exact hnl (hb ▸ ha)
      · simpa [Function.update_noteq (Ne.symm hn), Function.update_noteq (Ne.symm (hp.ne_null (p := mid) (by simp)))] using hp.null_free
      · intro p
        by_cases hpn : p = node
        · subst hpn; simp
        · by_cases hpl : p = mid
          · subst hpl; simp [hpn]
          · simp only [Function.update_noteq hpn, Function.update_noteq hpl, List.mem_append,
              List.mem_singleton, hpn, or_false]
            simpa [hpl] using hp.live p
      · cases m with
        | nil => simp [hp.head_cons]
        | cons a m => simp [hp.head_cons]
      · show Seg _ s.head (m ++ [mid] ++ [node]) s.head
        rw [List.append_assoc]
        refine seg_append.2 ⟨mid, ?_, ?_⟩
        · apply seg_congr _ hs1
          intro a ha
          have h1 : a ≠ node := fun h => hnl (by simp [← h, ha])
          have h2 : a ≠ mid := fun h => hlm (h ▸ ha)
          simp [Function.update_noteq h1, Function.update_noteq h2]
        · simp [Function.update_noteq hlast_ne]
      · have := hp.current_in (by simp)
        simp only [List.append_eq_nil, List.cons_ne_nil, and_false, if_false]
        exact List.mem_append_left _ this
    · simp
    · intro p hpn
      by_cases hpl : p = mid
      · subst hpl; simp [Function.update_noteq hpn, hnl']
      · simp [Function.update_noteq hpn, Function.update_noteq hpl]
    · show s.head = _
      cases m with
      | nil => simp [hp.head_cons]
      | cons a m => simp [hp.head_cons]
    · simp

/-! ## Removing a song: the loop -/

theorem strcmp_eq_zero {a b : List Nat} : strcmp a b = 0 ↔ cstr a = cstr b := by
  unfold strcmp; split <;> simp [*]

theorem titleAt_of_lookup {h : Heap} {p : Ptr} {n : Song} (hn : h p = some n) :
    titleAt h p = cstr n.title := by
  simp [titleAt, hn]

/-- One iteration of the loop of `removeSong` at a node whose title differs,
when the loop goes on. -/
theorem removeLoop_skip {inner fuel : Nat} {title : List Nat} {s : State} {temp prev : Ptr}
    {node : Song} (hn : s.heap temp = some node) (hne : cstr node.title ≠ cstr title)
    (hnext : node.next ≠ s.head) :
    removeLoop inner title (fuel + 1) s temp prev = removeLoop inner title fuel s node.next temp := by
  have : ¬ strcmp node.title title = 0 := fun h => hne (strcmp_eq_zero.1 h)
  simp only [removeLoop, hn, this, if_false, hnext, ne_eq, not_false_eq_true, if_true]

/-- One iteration of the loop of `removeSong` at a node whose title differs,
when the loop ends. -/
theorem removeLoop_last {inner fuel : Nat} {title : List Nat} {s : State} {temp prev : Ptr}
    {node : Song} (hn : s.heap temp = some node) (hne : cstr node.title ≠ cstr title)
    (hnext : node.next = s.head) :
    removeLoop inner title (fuel + 1) s temp prev = some (s, [Out.notFound (cstr title)]) := by
  have : ¬ strcmp node.title title = 0 := fun h => hne (strcmp_eq_zero.1 h)
  simp only [removeLoop, hn, this, if_false, hnext, ne_eq, not_true_eq_false]

/-- The iteration of the loop of `removeSong` that removes the only node. -/
theorem removeLoop_only (inner fuel : Nat) {title : List Nat} {s : State} (prev : Ptr)
    {node : Song} (hn : s.heap s.head = some node) (he : cstr node.title = cstr title)
    (hnext : node.next = s.head) (hnn : s.head ≠ NULL) :
    removeLoop inner title (fuel + 1) s s.head prev =
      some ({ heap := Function.update s.heap s.head none, head := NULL, current := NULL },
            [Out.removed (cstr title)]) := by
  have : strcmp node.title title = 0 := strcmp_eq_zero.2 he
  simp only [removeLoop, hn, this, if_true, hnext, free_of_lookup hn hnn]

/-- The iteration of the loop of `removeSong` that removes the head of a list
with more than one node. -/
theorem removeLoop_head (inner fuel : Nat) {title : List Nat} {s : State} (prev : Ptr)
    {last : Ptr} {node nl : Song} (hn : s.heap s.head = some node) (he : cstr node.title = cstr title)
    (hnext : node.next ≠ s.head) (hfind : findPred inner s.heap s.head s.head = some last)
    (hl : s.heap last = some nl) (hlh : last ≠ s.head) (hnn : s.head ≠ NULL) :
    removeLoop inner title (fuel + 1) s s.head prev =
      some ({ heap := Function.update (Function.update s.heap last
                        (some { nl with next := node.next })) s.head none,
              head := node.next,
              current := if s.current = s.head then node.next else s.current },
            [Out.removed (cstr title)]) := by
  have : strcmp node.title title = 0 := strcmp_eq_zero.2 he
  have hfree : free (Function.update s.heap last (some { nl with next := node.next })) s.head =
      some (Function.update (Function.update s.heap last (some { nl with next := node.next }))
        s.head none) :=
    free_of_lookup (n := node) (by rw [Function.update_noteq hlh.symm]; exact hn) hnn
  simp only [removeLoop, hn, this, if_true, hnext, if_false, hfind, setNext, hl, hfree]

/-- The iteration of the loop of `removeSong` that removes a node other than
the head. -/
theorem removeLoop_other (inner fuel : Nat) {title : List Nat} {s : State} {temp prev : Ptr}
    {node np : Song} (hn : s.heap temp = some node) (he : cstr node.title = cstr title)
    (hth : temp ≠ s.head) (hprev : prev ≠ NULL) (hp : s.heap prev = some np)
    (hpt : prev ≠ temp) (hnn : temp ≠ NULL) :
    removeLoop inner title (fuel + 1) s temp prev =
      some ({ heap := Function.update (Function.update s.heap prev
                        (some { np with next := node.next })) temp none,
              head := s.head,
              current := if s.current = temp then node.next else s.current },
            [Out.removed (cstr title)]) := by
  have : strcmp node.title title = 0 := strcmp_eq_zero.2 he
  have hfree : free (Function.update s.heap prev (some { np with next := node.next })) temp =
      some (Function.update (Function.update s.heap prev (some { np with next := node.next }))
        temp none) :=
    free_of_lookup (n := node) (by rw [Function.update_noteq hpt.symm]; exact hn) hnn
  simp only [removeLoop, hn, this, if_true, hth, if_false, hprev, ne_eq, not_false_eq_true,
    setNext, hp, hfree, Function.update_noteq hpt.symm]

/-- The loop of `removeSong` walks over a stretch `mid` of nodes whose titles
differ and arrives at the next node `x` with `prev` its predecessor. -/
theorem removeLoop_walk {inner : Nat} {title : List Nat} {s : State} (mid : List Ptr)
    {x temp prev : Ptr} (k : Nat)
    (hs : Seg s.heap temp mid x) (hne : ∀ p ∈ mid, titleAt s.heap p ≠ cstr title)
    (hh : s.head ∉ (mid ++ [x]).tail) :
    removeLoop inner title (mid.length + k) s temp prev =
      removeLoop inner title k s x (mid.getLast?.getD prev) := by
  induction mid generalizing temp prev with
  | nil => simp only [seg_nil] at hs; subst hs; simp
  | cons a m ih =>
    obtain ⟨rfl, n, hn, hq⟩ := hs
    have hnext : n.next ≠ s.head := by
      intro he
      apply hh
      cases m with
      | nil => simp at hq; simp [← he, hq]
      | cons b m => simp at hq; simp [← he, hq.1]
    have hne' : cstr n.title ≠ cstr title := by
      have := hne temp (List.mem_cons_self _ _)
      rwa [titleAt_of_lookup hn] at this
    have hlen : (temp :: m).length + k = (m.length + k) + 1 := by simp; omega
    rw [hlen, removeLoop_skip hn hne' hnext,
      ih hq (fun p hp => hne p (List.mem_cons_of_mem _ hp))
        (fun hm => hh (by simpa using List.mem_of_mem_tail hm))]
    congr 1
    cases m with
    | nil => simp
    | cons b m =>
      simp [List.getLast?_eq_getLast (b :: m) (List.cons_ne_nil _ _)]

theorem removeLoop_mono {inner inner1 : Nat} {title : List Nat} {n m : Nat} {s : State}
    {temp prev : Ptr} {r : State × List Out} (hi : inner ≤ inner1) (hle : n ≤ m)
    (hf : removeLoop inner title n s temp prev = some r) :
    removeLoop inner1 title m s temp prev = some r := by
  induction n generalizing m temp prev r with
  | zero => simp [removeLoop] at hf
  | succ n ih =>
    obtain ⟨m, rfl⟩ : ∃ k, m = k + 1 := ⟨m - 1, by omega⟩
    simp only [removeLoop] at hf ⊢
    cases hn : s.heap temp with
    | none => simp [hn] at hf
    | some node =>
      simp only [hn] at hf ⊢
      have hcont : ∀ r, (if node.next ≠ s.head then removeLoop inner title n s node.next temp
            else some (s, [Out.notFound (cstr title)])) = some r →
          (if node.next ≠ s.head then removeLoop inner1 title m s node.next temp
            else some (s, [Out.notFound (cstr title)])) = some r := by
        intro r hr
        by_cases hc : node.next = s.head
        · simpa [hc] using hr
        · simp only [ne_eq, hc, not_false_eq_true, if_true] at hr ⊢
          exact ih (by omega) hr
      by_cases h1 : strcmp node.title title = 0
      · simp only [h1, if_true] at hf ⊢
        by_cases h2 : temp = s.head
        · simp only [h2, if_true] at hf ⊢
          cases hh : s.heap s.head with
          | none => simp [hh] at hf
          | some hd =>
            simp only [hh] at hf ⊢
            by_cases h3 : hd.next = s.head
            · simpa [h3] using hf
            · simp only [h3, if_false] at hf ⊢
              cases hfp : findPred inner s.heap s.head s.head with
              | none => simp [hfp] at hf
              | some last =>
                rw [findPred_mono hi hfp]
                simpa [hfp] using hf
        · simp only [h2, if_false] at hf ⊢
          by_cases h3 : prev = NULL
          · simp only [h3, ne_eq, not_true_eq_false, if_false] at hf ⊢
            exact hcont r hf
          · simpa [h3] using hf
      · simp only [h1, if_false] at hf ⊢
        exact hcont r hf

/-! ## Removing a song: the three cases -/

theorem IsPlaylist.head_mem {s : State} {l : List Ptr} (hp : IsPlaylist s l) (hl : l ≠ []) :
    s.head ∈ l := by
  cases l with
  | nil => exact absurd rfl hl
  | cons a r => simp [hp.head_cons]

theorem IsPlaylist.head_not_mem_tail {s : State} {l : List Ptr} (hp : IsPlaylist s l) :
    s.head ∉ l.tail := by
  cases l with
  | nil => simp
  | cons a r =>
    rw [hp.head_cons]
    exact (List.nodup_cons.1 hp.nodup).1

theorem IsPlaylist.head_ne_null {s : State} {l : List Ptr} (hp : IsPlaylist s l) (hl : l ≠ []) :
    s.head ≠ NULL := hp.ne_null (hp.head_mem hl)

theorem removeSong_empty (fuel : Nat) (title : List Nat) {s : State} (hh : s.head = NULL) :
    removeSong fuel title s = some (s, [Out.playlistEmpty]) := by
  simp [removeSong, hh]

theorem removeSong_notFound {s : State} {l : List Ptr} (hp : IsPlaylist s l) (hl : l ≠ [])
    {title : List Nat} (hne : ∀ p ∈ l, titleAt s.heap p ≠ cstr title) {fuel : Nat}
    (hf : l.length ≤ fuel) :
    removeSong fuel title s = some (s, [Out.notFound (cstr title)]) := by
  rcases List.eq_nil_or_concat l with rfl | ⟨m, last, hml⟩
  · exact absurd rfl hl
  rw [List.concat_eq_append] at hml; subst hml
  obtain ⟨k, rfl⟩ : ∃ k, fuel = m.length + (k + 1) := ⟨fuel - m.length - 1, by simp at hf; omega⟩
  obtain ⟨mid, hs1, hs2⟩ := seg_append.1 hp.cycle
  simp only [seg_cons, seg_nil] at hs2
  obtain ⟨rfl, nl, hnl, hnext⟩ := hs2
  have hne' : cstr nl.title ≠ cstr title := by
    have := hne mid (by simp)
    rwa [titleAt_of_lookup hnl] at this
  simp only [removeSong, hp.head_ne_null hl, if_false]
  rw [removeLoop_walk m (k + 1) hs1 (fun p hm => hne p (List.mem_append_left _ hm))
    hp.head_not_mem_tail, removeLoop_last hnl hne' hnext]

theorem removeSong_only {s : State} {x : Ptr} (hp : IsPlaylist s [x])
    {title : List Nat} (he : titleAt s.heap x = cstr title) {fuel : Nat} (hf : 1 ≤ fuel) :
    removeSong fuel title s =
        some ({ heap := Function.update s.heap x none, head := NULL, current := NULL },
              [Out.removed (cstr title)]) ∧
      IsPlaylist { heap := Function.update s.heap x none, head := NULL, current := NULL } [] := by
  obtain ⟨k, rfl⟩ : ∃ k, fuel = k + 1 := ⟨fuel - 1, by omega⟩
  have hh := hp.head_cons
  have hc := hp.cycle
  rw [hh] at hc
  simp only [seg_cons, seg_nil, true_and] at hc
  obtain ⟨nx, hnx, hnext⟩ := hc
  have hxn : x ≠ NULL := hp.ne_null (by simp)
  rw [titleAt_of_lookup hnx] at he
  constructor
  · simp only [removeSong, hh, hxn, if_false]
    have := removeLoop_only (k + 1) k NULL (hh ▸ hnx) he
      (hh ▸ hnext) (hh ▸ hxn)
    rw [hh] at this
    exact this
  · refine ⟨by simp, ?_, ?_, by simp, by simp, by simp⟩
    · simpa [Function.update_noteq (Ne.symm hxn)] using hp.null_free
    · intro p
      by_cases hpx : p = x
      · subst hpx; simp
      · have := hp.live p
        simp only [List.mem_singleton, hpx, false_iff, not_not] at this
        simp [Function.update_noteq hpx, this]

theorem removeSong_head {s : State} {x y : Ptr} {r : List Ptr} (hp : IsPlaylist s (x :: y :: r))
    {title : List Nat} (he : titleAt s.heap x = cstr title) {fuel : Nat}
    (hf : (x :: y :: r).length ≤ fuel) :
    ∃ s1, removeSong fuel title s = some (s1, [Out.removed (cstr title)]) ∧
      IsPlaylist s1 (y :: r) ∧ s1.heap x = none ∧
      (∀ p, p ≠ x → (s1.heap p).map Song.title = (s.heap p).map Song.title) ∧
      s1.current = if s.current = x then y else s.current := by
  obtain ⟨k, rfl⟩ : ∃ k, fuel = k + 1 := ⟨fuel - 1, by simp at hf; omega⟩
  have hh := hp.head_cons
  have hnd := hp.nodup
  have hxn : x ≠ NULL := hp.ne_null (by simp)
  rcases List.eq_nil_or_concat (y :: r) with hnil | ⟨m, last, hml⟩
  · simp at hnil
  rw [List.concat_eq_append] at hml
  have hc := hp.cycle
  rw [hh, hml] at hc
  have hfind : findPred (k + 1) s.heap x x = some last := by
    apply findPred_spec (x :: m) last
    · simpa using hc
    · have := hp.head_not_mem_tail
      rw [hh, hml] at this
      simpa using this
    · have : (y :: r).length = m.length + 1 := by rw [hml]; simp
      simp at hf this ⊢; omega
  simp only [seg_cons, true_and] at hc
  obtain ⟨nx, hnx, hc⟩ := hc
  obtain ⟨mid, hs1, hs2⟩ := seg_append.1 hc
  simp only [seg_cons, seg_nil] at hs2
  obtain ⟨rfl, nl, hnl, hlnext⟩ := hs2
  have hlast_mem : mid ∈ y :: r := by rw [hml]; simp
  have hxyr : x ∉ y :: r := (List.nodup_cons.1 hnd).1
  have hlx : mid ≠ x := fun h => hxyr (h ▸ hlast_mem)
  have hnxt : nx.next = y := by
    have : Seg s.heap nx.next (y :: r) x := by rw [hml]; exact hc
    exact this.1
  have hnexth : nx.next ≠ x := by rw [hnxt]; intro h; exact hxyr (by simp [h])
  rw [titleAt_of_lookup hnx] at he
  have hstep := removeLoop_head (k + 1) k NULL
    (hh ▸ hnx) he (hh ▸ hnexth) (hh ▸ hfind) hnl (hh ▸ hlx) (hh ▸ hxn)
  rw [hh, hnxt] at hstep
  have hrs : removeSong (k + 1) title s = removeLoop (k + 1) title (k + 1) s x NULL := by
    simp only [removeSong, hh, hxn, if_false]
  refine ⟨_, hrs.trans hstep, ?_, ?_, ?_, ?_⟩
  · have hnd' : (y :: r).Nodup := (List.nodup_cons.1 hnd).2
    have hmm : mid ∉ m := by
      rw [hml, List.nodup_append] at hnd'
      exact fun hm => hnd'.2.2 hm (by simp)
    refine ⟨hnd', ?_, ?_, by simp, ?_, ?_⟩
    · have : mid ≠ NULL := hp.ne_null (List.mem_cons_of_mem _ hlast_mem)
      simpa [Function.update_noteq (Ne.symm hxn), Function.update_noteq (Ne.symm this)]
        using hp.null_free
    · intro p
      by_cases hpx : p = x
      · subst hpx; simpa using hxyr
      · by_cases hpl : p = mid
        · subst hpl; simpa [Function.update_noteq hpx] using hlast_mem
        · simp only [Function.update_noteq hpx, Function.update_noteq hpl]
          rw [← hp.live p]; simp [hpx]
    · show Seg _ y (y :: r) y
      rw [hml]
      refine seg_append.2 ⟨mid, ?_, ?_⟩
      · have hs1' : Seg s.heap y m mid := hnxt ▸ hs1
        apply seg_congr _ hs1'
        intro a ha
        have h1 : a ≠ x := fun h => hxyr (by rw [hml, ← h]; exact List.mem_append_left _ ha)
        have h2 : a ≠ mid := fun h => hmm (h ▸ ha)
        simp [Function.update_noteq h1, Function.update_noteq h2]
      · simp [Function.update_noteq hlx]
    · simp only [List.cons_ne_nil, if_false]
      by_cases hcx : s.current = x
      · simp [hcx]
      · have := hp.current_in (by simp)
        simp only [List.mem_cons] at this
        simp only [hcx, if_false, List.mem_cons]
        tauto
  · simp
  · intro p hpx
    by_cases hpl : p = mid
    · subst hpl; simp [Function.update_noteq hpx, hnl]
    · simp [Function.update_noteq hpx, Function.update_noteq hpl]
  · rfl

theorem removeSong_other {s : State} {m post : List Ptr} {pv x : Ptr}
    (hp : IsPlaylist s (m ++ pv :: x :: post))
    {title : List Nat} (hne : ∀ p ∈ m ++ [pv], titleAt s.heap p ≠ cstr title)
    (he : titleAt s.heap x = cstr title) {fuel : Nat}
    (hf : (m ++ pv :: x :: post).length ≤ fuel) :
    ∃ s1, removeSong fuel title s = some (s1, [Out.removed (cstr title)]) ∧
      IsPlaylist s1 (m ++ pv :: post) ∧ s1.heap x = none ∧
      (∀ p, p ≠ x → (s1.heap p).map Song.title = (s.heap p).map Song.title) ∧
      s1.current = (if s.current = x then (post ++ m ++ [pv]).headD NULL else s.current) ∧
      s1.head = s.head := by
  obtain ⟨k, rfl⟩ : ∃ k, fuel = (m ++ [pv]).length + (k + 1) :=
    ⟨fuel - (m ++ [pv]).length - 1, by simp at hf ⊢; omega⟩
  have hl : m ++ pv :: x :: post ≠ [] := by simp
  have hnd := hp.nodup
  have hc := hp.cycle
  have hsplit : m ++ pv :: x :: post = (m ++ [pv]) ++ x :: post := by simp
  rw [hsplit] at hc
  obtain ⟨x', hs1, hs2⟩ := seg_append.1 hc
  obtain ⟨rfl, nx, hnx, hs3⟩ := hs2
  obtain ⟨pv', hs4, hs5⟩ := seg_append.1 hs1
  simp only [seg_cons, seg_nil] at hs5
  obtain ⟨rfl, np, hnp, hpnext⟩ := hs5
  have htail := hp.head_not_mem_tail
  have hwalk : removeLoop ((m ++ [pv']).length + (k + 1)) title
        ((m ++ [pv']).length + (k + 1)) s s.head NULL =
      removeLoop ((m ++ [pv']).length + (k + 1)) title (k + 1) s x'
        ((m ++ [pv']).getLast?.getD NULL) :=
    removeLoop_walk (m ++ [pv']) (k + 1) hs1 hne
    (by intro hm; apply htail; cases m <;> simp_all)
  have hxh : x' ≠ s.head := by
    intro h; apply htail; rw [← h]; cases m <;> simp
  have hpn : pv' ≠ NULL := hp.ne_null (by simp)
  have hpx : pv' ≠ x' := by
    intro h; subst h
    simp [List.nodup_append] at hnd
  rw [titleAt_of_lookup hnx] at he
  have hstep := removeLoop_other ((m ++ [pv']).length + (k + 1)) k
    hnx he hxh hpn hnp hpx (hp.ne_null (by simp))
  have hrs : removeSong ((m ++ [pv']).length + (k + 1)) title s =
      removeLoop ((m ++ [pv']).length + (k + 1)) title ((m ++ [pv']).length + (k + 1)) s
        s.head NULL := by
    simp only [removeSong, hp.head_ne_null hl, if_false]
  rw [hwalk] at hrs
  have hgl : (m ++ [pv']).getLast?.getD NULL = pv' := by simp
  rw [hgl] at hrs
  have hnxt : nx.next = (post ++ m ++ [pv']).headD NULL := by
    cases post with
    | nil =>
      simp only [seg_nil] at hs3
      rw [hs3, hp.head_eq]
      cases m <;> simp
    | cons b post => simp [hs3.1]
  have hxm : x' ∉ m := by
    intro h; simp [List.nodup_append, h] at hnd
  have hxpost : x' ∉ post := by
    intro h; simp [List.nodup_append, h] at hnd
  have hpm : pv' ∉ m := by
    intro h; simp [List.nodup_append, h] at hnd
  have hppost : pv' ∉ post := by
    intro h; simp [List.nodup_append, h] at hnd
  refine ⟨_, hrs.trans hstep, ?_, ?_, ?_, ?_, rfl⟩
  · refine ⟨?_, ?_, ?_, ?_, ?_, ?_⟩
    · have : (m ++ pv' :: post).Sublist (m ++ pv' :: x' :: post) :=
        List.Sublist.append_left ((List.sublist_cons_self _ _).cons₂ _) _
      exact hnd.sublist this
    · have : x' ≠ NULL := hp.ne_null (by simp)
      simpa [Function.update_noteq (Ne.symm this), Function.update_noteq (Ne.symm hpn)]
        using hp.null_free
    · intro p
      by_cases hpx' : p = x'
      · subst hpx'; simp [hxm, hxpost, Ne.symm hpx]
      · by_cases hpp : p = pv'
        · subst hpp; simp [Function.update_noteq hpx']
        · simp only [Function.update_noteq hpx', Function.update_noteq hpp]
          rw [← hp.live p]; simp [hpx']
    · show s.head = _
      rw [hp.head_eq]; cases m <;> simp
    · show Seg _ s.head (m ++ pv' :: post) s.head
      refine seg_append.2 ⟨pv', ?_, ?_⟩
      · apply seg_congr _ hs4
        intro a ha
        have h1 : a ≠ x' := fun h => hxm (h ▸ ha)
        have h2 : a ≠ pv' := fun h => hpm (h ▸ ha)
        simp [Function.update_noteq h1, Function.update_noteq h2]
      · simp only [seg_cons, true_and]
        refine ⟨{ np with next := nx.next }, by simp [Function.update_noteq hpx], ?_⟩
        apply seg_congr _ hs3
        intro a ha
        have h1 : a ≠ x' := fun h => hxpost (h ▸ ha)
        have h2 : a ≠ pv' := fun h => hppost (h ▸ ha)
        simp [Function.update_noteq h1, Function.update_noteq h2]
    · have hcur := hp.current_in hl
      simp only [List.append_eq_nil, List.cons_ne_nil, and_false, if_false]
      by_cases hcx : s.current = x'
      · simp only [hcx, if_true, hnxt]
        cases post with
        | nil => cases m <;> simp
        | cons b post => simp
      · simp only [hcx, if_false]
        simp only [List.mem_append, List.mem_cons] at hcur ⊢
        tauto
  · simp
  · intro p hpx'
    by_cases hpp : p = pv'
    · subst hpp; simp [Function.update_noteq hpx', hnp]
    · simp [Function.update_noteq hpx', Function.update_noteq hpp]
  · show (if s.current = x' then nx.next else s.current) = _
    rw [hnxt]

/-! ## Removing a song: the result; positions in the circle -/

/-- A successful `removeSong`: the first node `x` whose title is `title` is
unlinked and freed; the cursor moves to the successor of `x` when it was on
`x`. -/
theorem removeSong_found {s : State} {pre post : List Ptr} {x : Ptr}
    (hp : IsPlaylist s (pre ++ x :: post))
    {title : List Nat} (hne : ∀ p ∈ pre, titleAt s.heap p ≠ cstr title)
    (he : titleAt s.heap x = cstr title) {fuel : Nat}
    (hf : (pre ++ x :: post).length ≤ fuel) :
    ∃ s1, removeSong fuel title s = some (s1, [Out.removed (cstr title)]) ∧
      IsPlaylist s1 (pre ++ post) ∧ s1.heap x = none ∧
      (∀ p, p ≠ x → (s1.heap p).map Song.title = (s.heap p).map Song.title) ∧
      s1.current = (if s.current = x then (post ++ pre).headD NULL else s.current) := by
  rcases List.eq_nil_or_concat pre with rfl | ⟨m, pv, hml⟩
  · cases post with
    | nil =>
      have h1 := removeSong_only (s := s) (x := x) (by simpa using hp) he
        (show 1 ≤ fuel by simpa using hf)
      have hcur : s.current = x := by simpa using hp.current_in (by simp)
      refine ⟨_, h1.1, by simpa using h1.2, by simp, ?_, by simp [hcur]⟩
      intro p hpx
      simp [Function.update_noteq hpx]
    | cons y r =>
      obtain ⟨s1, h1, h2, h3, h4, h5⟩ := removeSong_head
        (show IsPlaylist s (x :: y :: r) by simpa using hp) he
        (show (x :: y :: r).length ≤ fuel by simpa using hf)
      exact ⟨s1, h1, by simpa using h2, h3, h4, by simpa using h5⟩
  · rw [List.concat_eq_append] at hml; subst hml
    obtain ⟨s1, h1, h2, h3, h4, h5, _⟩ := removeSong_other
      (show IsPlaylist s (m ++ pv :: x :: post) by simpa using hp) hne he
      (show (m ++ pv :: x :: post).length ≤ fuel by simpa using hf)
    exact ⟨s1, h1, by simpa using h2, h3, h4, by simpa using h5⟩

/-- In a list segment, the node at position `i` is live and its `next` link
is the node at position `i + 1` (the end point after the last node). -/
theorem seg_get {h : Heap} {l : List Ptr} {p q : Ptr} (hs : Seg h p l q) (i : Nat) {a : Ptr}
    (ha : l[i]? = some a) : ∃ n, h a = some n ∧ (l ++ [q])[i + 1]? = some n.next := by
  induction l generalizing p i with
  | nil => simp at ha
  | cons b l ih =>
    obtain ⟨rfl, n, hn, hr⟩ := hs
    cases i with
    | zero =>
      simp only [List.getElem?_cons_zero, Option.some.injEq] at ha
      subst ha
      refine ⟨n, hn, ?_⟩
      cases l with
      | nil => simp only [seg_nil] at hr; simp [hr]
      | cons c l => simp [hr.1]
    | succ i =>
      simp only [List.getElem?_cons_succ] at ha
      obtain ⟨n', hn', hx⟩ := ih hr i ha
      exact ⟨n', hn', by simpa using hx⟩

/-- In a playlist, the `next` link of the node at position `i` is the node at
position `(i + 1) mod N`. -/
theorem IsPlaylist.next_get {s : State} {l : List Ptr} (hp : IsPlaylist s l) (i : Nat) {a : Ptr}
    (ha : l[i]? = some a) :
    ∃ n, s.heap a = some n ∧ l[(i + 1) % l.length]? = some n.next := by
  obtain ⟨n, hn, hx⟩ := seg_get hp.cycle i ha
  refine ⟨n, hn, ?_⟩
  have hi : i < l.length := (List.getElem?_eq_some_iff.1 ha).1
  rcases Nat.lt_or_ge (i + 1) l.length with hlt | hge
  · rw [Nat.mod_eq_of_lt hlt, ← hx, List.getElem?_append_left hlt]
  · have hil : i + 1 = l.length := by omega
    rw [hil, Nat.mod_self]
    rw [hil, List.getElem?_append_right (le_refl _)] at hx
    simp only [Nat.sub_self, List.getElem?_cons_zero, Option.some.injEq] at hx
    rw [← hx, hp.head_eq]
    cases l with
    | nil => simp at hi
    | cons b l => simp

theorem IsPlaylist.iterNext_get {s : State} {l : List Ptr} (hp : IsPlaylist s l) (k i : Nat)
    {a : Ptr} (ha : l[i]? = some a) :
    ∃ b, iterNext s.heap k a = some b ∧ l[(i + k) % l.length]? = some b := by
  have hi : i < l.length := (List.getElem?_eq_some_iff.1 ha).1
  induction k generalizing i a with
  | zero => exact ⟨a, rfl, by simpa [Nat.mod_eq_of_lt hi] using ha⟩
  | succ k ih =>
    obtain ⟨n, hn, hx⟩ := hp.next_get i ha
    have hlt : (i + 1) % l.length < l.length := Nat.mod_lt _ (by omega)
    obtain ⟨b, hb, hb'⟩ := ih _ hx hlt
    refine ⟨b, by simp [iterNext, hn, hb], ?_⟩
    rw [← hb']
    congr 1
    rw [Nat.mod_add_mod, Nat.add_assoc, Nat.add_comm 1 k]

/-! ## Moving the cursor -/

theorem playCurrent_nil {s : State} (hc : s.current = NULL) :
    playCurrent s = some (s, [Out.noSongs]) := by
  simp [playCurrent, hc]

theorem playCurrent_spec {s : State} {l : List Ptr} (hp : IsPlaylist s l) (hl : l ≠ []) :
    playCurrent s = some (s, [Out.nowPlaying (titleAt s.heap s.current)]) := by
  have hm := hp.current_in hl
  obtain ⟨n, hn⟩ := hp.lookup hm
  simp [playCurrent, hp.ne_null hm, hn, titleAt]

theorem IsPlaylist.set_current {s : State} {l : List Ptr} (hp : IsPlaylist s l) {c : Ptr}
    (hc : c ∈ l) : IsPlaylist { s with current := c } l :=
  ⟨hp.nodup, hp.null_free, hp.live, hp.head_eq, hp.cycle, by
    have : l ≠ [] := List.ne_nil_of_mem hc
    simp [this, hc]⟩

theorem playNext_spec {s : State} {l : List Ptr} (hp : IsPlaylist s l) {i : Nat}
    (hi : l[i]? = some s.current) :
    ∃ c1, l[(i + 1) % l.length]? = some c1 ∧
      playNext s = some ({ s with current := c1 }, [Out.nowPlaying (titleAt s.heap c1)]) ∧
      IsPlaylist { s with current := c1 } l := by
  obtain ⟨n, hn, hx⟩ := hp.next_get i hi
  have hm : s.current ∈ l := List.getElem?_mem hi
  have hm1 : n.next ∈ l := List.getElem?_mem hx
  have hp1 := hp.set_current hm1
  refine ⟨n.next, hx, ?_, hp1⟩
  have := playCurrent_spec hp1 (List.ne_nil_of_mem hm)
  simp only [playNext, hp.ne_null hm, if_false, hn]
  exact this

/-- The scan of `playPrevious` from `head` stops at the node before the
cursor in the circular order. -/
theorem IsPlaylist.findPred_current {s : State} {l : List Ptr} (hp : IsPlaylist s l) {i : Nat}
    {c : Ptr} (hi : l[i]? = some c) {fuel : Nat} (hf : l.length ≤ fuel) :
    ∃ x, l[(i + l.length - 1) % l.length]? = some x ∧
      findPred fuel s.heap c s.head = some x := by
  have hil : i < l.length := (List.getElem?_eq_some_iff.1 hi).1
  cases i with
  | zero =>
    rcases List.eq_nil_or_concat l with rfl | ⟨m, x, hml⟩
    · simp at hil
    rw [List.concat_eq_append] at hml; subst hml
    have hc : c = s.head := by
      rw [hp.head_eq]; cases m <;> simp_all
    refine ⟨x, ?_, ?_⟩
    · have : (0 + (m ++ [x]).length - 1) % (m ++ [x]).length = m.length := by
        simp
      rw [this]; simp
    · rw [hc]
      exact findPred_spec m x hp.cycle hp.head_not_mem_tail (by simp at hf; omega)
  | succ j =>
    have hsplit : l = l.take (j + 1) ++ l.drop (j + 1) := (List.take_append_drop _ _).symm
    have hdrop : l.drop (j + 1) = c :: l.drop (j + 2) := by
      rw [List.drop_eq_getElem_cons hil]
      congr 1
      rw [List.getElem?_eq_getElem hil] at hi
      exact Option.some.inj hi
    have hcy := hp.cycle
    rw [hsplit, hdrop] at hcy
    obtain ⟨c', hs1, hs2⟩ := seg_append.1 hcy
    obtain ⟨rfl, -⟩ := hs2
    rcases List.eq_nil_or_concat (l.take (j + 1)) with hnil | ⟨m, x, hml⟩
    · have := congrArg List.length hnil
      rw [List.length_take, List.length_nil] at this; omega
    rw [List.concat_eq_append] at hml
    have hmlen : m.length = j := by
      have := congrArg List.length hml
      rw [List.length_take, List.length_append, List.length_singleton] at this; omega
    refine ⟨x, ?_, ?_⟩
    · have : (j + 1 + l.length - 1) % l.length = j := by
        have : j + 1 + l.length - 1 = j + l.length := by omega
        rw [this, Nat.add_mod_right, Nat.mod_eq_of_lt (by omega)]
      rw [this]
      have hx : (l.take (j + 1))[j]? = some x := by
        rw [hml, List.getElem?_append_right (by omega)]; simp [hmlen]
      rw [List.getElem?_take] at hx
      simpa using hx
    · rw [hml] at hs1
      apply findPred_spec m x hs1
      · intro hmem
        have hnd := hp.nodup
        rw [hsplit, hdrop, hml] at hnd
        have hmem' : c' ∈ m ++ [x] := List.mem_of_mem_tail hmem
        exact (List.nodup_append.1 hnd).2.2 hmem' (by simp)
      · omega

theorem playPrevious_spec {s : State} {l : List Ptr} (hp : IsPlaylist s l) {i : Nat}
    (hi : l[i]? = some s.current) {fuel : Nat} (hf : l.length ≤ fuel) :
    ∃ c1, l[(i + l.length - 1) % l.length]? = some c1 ∧
      playPrevious fuel s = some ({ s with current := c1 }, [Out.nowPlaying (titleAt s.heap c1)]) ∧
      IsPlaylist { s with current := c1 } l := by
  have hm : s.current ∈ l := List.getElem?_mem hi
  have hl : l ≠ [] := List.ne_nil_of_mem hm
  obtain ⟨hd, hhd⟩ := hp.lookup (hp.head_mem hl)
  obtain ⟨x, hx, hfind⟩ := hp.findPred_current hi hf
  have hxm : x ∈ l := List.getElem?_mem hx
  have hp1 := hp.set_current hxm
  refine ⟨x, hx, ?_, hp1⟩
  have hpc := playCurrent_spec hp1 hl
  simp only [playPrevious, hp.ne_null hm, if_false, hhd]
  by_cases hone : hd.next = s.head
  · -- a single node: the scan would stop at once, at the cursor
    simp only [hone, if_true]
    have hl1 : l.length = 1 := by
      obtain ⟨n, hn, hnx⟩ := hp.next_get 0 (a := s.head) (by
        rw [hp.head_eq]; cases l <;> simp_all)
      rw [hhd] at hn; cases hn
      rw [hone, hp.head_eq] at hnx
      by_contra hne
      have h2 : 1 < l.length := by
        have : 0 < l.length := List.length_pos.2 hl
        omega
      rw [Nat.mod_eq_of_lt h2] at hnx
      have hnd := hp.nodup
      match l, hnx, hnd with
      | a :: b :: r, hnx, hnd => simp at hnx; simp [hnx] at hnd
    have hxc : x = s.current := by
      match l, hl1, hi, hx with
      | [a], _, hi, hx =>
        have hi0 : i = 0 := by
          have := (List.getElem?_eq_some_iff.1 hi).1
          simpa using this
        subst hi0
        simp at hi hx
        rw [← hi, ← hx]
    subst hxc
    exact hpc
  · simp only [hone, if_false, hfind]
    exact hpc

/-! ## Display, teardown, and fuel -/

theorem displayLoop_spec {s : State} (rest : List Ptr) {temp : Ptr} {fuel : Nat}
    (hs : Seg s.heap temp rest s.head) (hr : rest ≠ []) (hh : s.head ∉ rest.tail)
    (hf : rest.length ≤ fuel) :
    displayLoop fuel s temp = some (rest.map (displayLine s)) := by
  induction rest generalizing temp fuel with
  | nil => exact absurd rfl hr
  | cons a r ih =>
    obtain ⟨fuel, rfl⟩ : ∃ k, fuel = k + 1 := ⟨fuel - 1, by simp at hf; omega⟩
    obtain ⟨rfl, n, hn, hq⟩ := hs
    cases r with
    | nil =>
      simp only [seg_nil] at hq
      simp [displayLoop, hn, hq, displayLine, titleAt]
    | cons b r =>
      have hb : n.next = b := hq.1
      have hne : n.next ≠ s.head := by
        intro he; apply hh; simp [← he, hb]
      have := ih hq (by simp) (fun hm => hh (List.mem_of_mem_tail hm))
        (show (b :: r).length ≤ fuel by simpa using hf)
      simp only [displayLoop, hn, hne, ne_eq, not_false_eq_true, if_true, this]
      simp [displayLine, titleAt, hn]

theorem displayPlaylist_nil {s : State} (hh : s.head = NULL) (fuel : Nat) :
    displayPlaylist fuel s = some (s, [Out.playlistEmpty]) := by
  simp [displayPlaylist, hh]

theorem displayPlaylist_spec {s : State} {l : List Ptr} (hp : IsPlaylist s l) (hl : l ≠ [])
    {fuel : Nat} (hf : l.length ≤ fuel) :
    displayPlaylist fuel s =
      some (s, [Out.header] ++ l.map (displayLine s) ++ [Out.footer]) := by
  simp only [displayPlaylist, hp.head_ne_null hl, if_false,
    displayLoop_spec l hp.cycle hl hp.head_not_mem_tail hf]

theorem freeLoop_spec {h : Heap} {head : Ptr} (rest : List Ptr) {temp : Ptr} {fuel : Nat}
    (hs : Seg h temp rest head) (hh : head ∉ rest) (hnd : rest.Nodup)
    (hnull : NULL ∉ rest) (hf : rest.length < fuel) :
    ∃ h1, freeLoop fuel h head temp = some h1 ∧
      ∀ p, h1 p = if p ∈ rest then none else h p := by
  induction rest generalizing temp fuel h with
  | nil =>
    obtain ⟨fuel, rfl⟩ : ∃ k, fuel = k + 1 := ⟨fuel - 1, by simp at hf; omega⟩
    simp only [seg_nil] at hs
    exact ⟨h, by simp [freeLoop, hs], by simp⟩
  | cons a r ih =>
    obtain ⟨fuel, rfl⟩ : ∃ k, fuel = k + 1 := ⟨fuel - 1, by simp at hf; omega⟩
    obtain ⟨rfl, n, hn, hq⟩ := hs
    have hth : temp ≠ head := fun he => hh (by simp [he])
    have har : temp ∉ r := (List.nodup_cons.1 hnd).1
    have hq' : Seg (Function.update h temp none) n.next r head := by
      apply seg_congr _ hq
      intro b hb
      exact Function.update_noteq (fun he : b = temp => har (he ▸ hb)) _ _
    obtain ⟨h1, hfl, hdom⟩ := ih hq' (fun hm => hh (List.mem_cons_of_mem _ hm))
      (List.nodup_cons.1 hnd).2 (fun hm => hnull (List.mem_cons_of_mem _ hm))
      (by simpa using hf)
    have htn : temp ≠ NULL := fun he => hnull (by simp [he])
    refine ⟨h1, by simp [freeLoop, hth, hn, free_of_lookup hn htn, hfl], ?_⟩
    intro p
    rw [hdom p]
    by_cases hpa : p = temp
    · subst hpa; simp [har]
    · simp [hpa, Function.update_noteq hpa]

theorem freePlaylist_nil {s : State} (hh : s.head = NULL) (fuel : Nat) :
    freePlaylist fuel s = some (s, []) := by
  simp [freePlaylist, hh]

theorem freePlaylist_spec {s : State} {l : List Ptr} (hp : IsPlaylist s l) (hl : l ≠ [])
    {fuel : Nat} (hf : l.length ≤ fuel) :
    freePlaylist fuel s = some ({ heap := fun _ => none, head := NULL, current := NULL }, []) := by
  cases l with
  | nil => exact absurd rfl hl
  | cons x r =>
    have hh := hp.head_cons
    have hc := hp.cycle
    rw [hh] at hc
    obtain ⟨-, nx, hnx, hq⟩ := hc
    have hnd := List.nodup_cons.1 hp.nodup
    obtain ⟨h1, hfl, hdom⟩ := freeLoop_spec r hq hnd.1 hnd.2
      (fun hm => hp.ne_null (List.mem_cons_of_mem _ hm) rfl)
      (show r.length < fuel by simpa [Nat.lt_iff_add_one_le] using hf)
    have hx1 : h1 x = some nx := by rw [hdom x]; simp [hnd.1, hnx]
    have hxn : x ≠ NULL := hp.ne_null (by simp)
    have hall : Function.update h1 x none = fun _ => none := by
      funext p
      by_cases hpx : p = x
      · subst hpx; simp
      · rw [Function.update_noteq hpx, hdom p]
        by_cases hpr : p ∈ r
        · simp [hpr]
        · have := hp.live p
          simp only [List.mem_cons, hpx, hpr, or_self, false_iff, not_not] at this
          simp [hpr, this]
    simp only [freePlaylist, hh, hxn, if_false, hnx, hfl, free_of_lookup hx1 hxn, hall]

theorem isPlaylist_init : IsPlaylist init [] :=
  ⟨List.nodup_nil, rfl, by simp [init], rfl, rfl, by simp [init]⟩

theorem displayLoop_mono {n m : Nat} {s : State} {temp : Ptr} {r : List Out} (hle : n ≤ m)
    (hf : displayLoop n s temp = some r) : displayLoop m s temp = some r := by
  induction n generalizing m temp r with
  | zero => simp [displayLoop] at hf
  | succ n ih =>
    obtain ⟨m, rfl⟩ : ∃ k, m = k + 1 := ⟨m - 1, by omega⟩
    simp only [displayLoop] at hf ⊢
    cases hn : s.heap temp with
    | none => simp [hn] at hf
    | some node =>
      simp only [hn] at hf ⊢
      by_cases hc : node.next = s.head
      · simpa [hc] using hf
      · simp only [ne_eq, hc, not_false_eq_true, if_true, Option.map_eq_some'] at hf ⊢
        obtain ⟨a, ha, rfl⟩ := hf
        exact ⟨a, ih (by omega) ha, rfl⟩

theorem freeLoop_mono {n m : Nat} {h : Heap} {head temp : Ptr} {r : Heap} (hle : n ≤ m)
    (hf : freeLoop n h head temp = some r) : freeLoop m h head temp = some r := by
  induction n generalizing m temp h with
  | zero => simp [freeLoop] at hf
  | succ n ih =>
    obtain ⟨m, rfl⟩ : ∃ k, m = k + 1 := ⟨m - 1, by omega⟩
    simp only [freeLoop] at hf ⊢
    by_cases hc : temp = head
    · simpa [hc] using hf
    · simp only [ne_eq, hc, not_false_eq_true, if_true] at hf ⊢
      cases hn : h temp with
      | none => simp [hn] at hf
      | some node =>
        simp only [hn] at hf ⊢
        cases hfr : free h temp with
        | none => simp [hfr] at hf
        | some h1 =>
          simp only [hfr] at hf ⊢
          exact ih (by omega) hf

theorem exec_mono {n m : Nat} {c : Call} {s : State} {r : State × List Out} (hle : n ≤ m)
    (hf : exec n c s = some r) : exec m c s = some r := by
  cases c with
  | addSong node title =>
    simp only [exec, addSong] at hf ⊢
    by_cases hn : node = NULL
    · simpa [create_song, hn] using hf
    · simp only [create_song, hn, if_false] at hf ⊢
      by_cases hh : s.head = NULL
      · simpa [hh] using hf
      · simp only [hh, if_false] at hf ⊢
        generalize Function.update s.heap node _ = h0 at hf ⊢
        cases hfp : findPred n h0 s.head s.head with
        | none => simp [hfp] at hf
        | some last =>
          rw [findPred_mono hle hfp]
          simpa [hfp] using hf
  | removeSong title =>
    simp only [exec, removeSong] at hf ⊢
    by_cases hh : s.head = NULL
    · simpa [hh] using hf
    · simp only [hh, if_false] at hf ⊢
      exact removeLoop_mono hle hle hf
  | displayPlaylist =>
    simp only [exec, displayPlaylist] at hf ⊢
    by_cases hh : s.head = NULL
    · simpa [hh] using hf
    · simp only [hh, if_false] at hf ⊢
      cases hd : displayLoop n s s.head with
      | none => simp [hd] at hf
      | some ls =>
        rw [displayLoop_mono hle hd]
        simpa [hd] using hf
  | playCurrent => exact hf
  | playNext => exact hf
  | playPrevious =>
    simp only [exec, playPrevious] at hf ⊢
    by_cases hc : s.current = NULL
    · simpa [hc] using hf
    · simp only [hc, if_false] at hf ⊢
      cases hhd : s.heap s.head with
      | none => simp [hhd] at hf
      | some hd =>
        simp only [hhd] at hf ⊢
        by_cases hone : hd.next = s.head
        · simpa [hone] using hf
        · simp only [hone, if_false] at hf ⊢
          cases hfp : findPred n s.heap s.current s.head with
          | none => simp [hfp] at hf
          | some x =>
            rw [findPred_mono hle hfp]
            simpa [hfp] using hf
  | freePlaylist =>
    simp only [exec, freePlaylist] at hf ⊢
    by_cases hh : s.head = NULL
    · simpa [hh] using hf
    · simp only [hh, if_false] at hf ⊢
      cases hhd : s.heap s.head with
      | none => simp [hhd] at hf
      | some hd =>
        simp only [hhd] at hf ⊢
        cases hfl : freeLoop n s.heap s.head hd.next with
        | none => simp [hfl] at hf
        | some h1 =>
          rw [freeLoop_mono hle hfl]
          simpa [hfl] using hf

/-! ## Every reachable state is a well-formed playlist -/

theorem exists_first_match (P : Ptr → Prop) (l : List Ptr) (h : ∃ p ∈ l, P p) :
    ∃ pre x post, l = pre ++ x :: post ∧ (∀ p ∈ pre, ¬ P p) ∧ P x := by
  induction l with
  | nil => simp at h
  | cons a l ih =>
    by_cases ha : P a
    · exact ⟨[], a, l, rfl, by simp, ha⟩
    · obtain ⟨p, hp, hPp⟩ := h
      have hpl : p ∈ l := by
        rcases List.mem_cons.1 hp with rfl | hpl
        · exact absurd hPp ha
        · exact hpl
      obtain ⟨pre, x, post, rfl, hpre, hx⟩ := ih ⟨p, hpl, hPp⟩
      refine ⟨a :: pre, x, post, rfl, ?_, hx⟩
      intro q hq
      rcases List.mem_cons.1 hq with rfl | hq
      · exact ha
      · exact hpre q hq

/-- Every call returns when given fuel for one round of the circle, and
leaves a well-formed playlist. -/
theorem exec_spec {s : State} {l : List Ptr} (hp : IsPlaylist s l) {c : Call}
    (hm : MallocOk s c) {fuel : Nat} (hf : l.length ≤ fuel) :
    ∃ s1 out l1, exec fuel c s = some (s1, out) ∧ IsPlaylist s1 l1 := by
  cases c with
  | addSong node title =>
    by_cases hn : node = NULL
    · subst hn
      exact ⟨s, _, l, addSong_null fuel title s, hp⟩
    · obtain ⟨s1, h1, h2, -⟩ := addSong_spec hp hn (hm hn) title hf
      exact ⟨s1, _, _, h1, h2⟩
  | removeSong title =>
    by_cases hl : l = []
    · subst hl
      exact ⟨s, _, [], removeSong_empty fuel title hp.head_nil, hp⟩
    · by_cases hex : ∃ p ∈ l, titleAt s.heap p = cstr title
      · obtain ⟨pre, x, post, rfl, hpre, hx⟩ := exists_first_match _ l hex
        obtain ⟨s1, h1, h2, -⟩ := removeSong_found hp hpre hx hf
        exact ⟨s1, _, _, h1, h2⟩
      · have hne : ∀ p ∈ l, titleAt s.heap p ≠ cstr title := fun p hpl he => hex ⟨p, hpl, he⟩
        exact ⟨s, _, l, removeSong_notFound hp hl hne hf, hp⟩
  | displayPlaylist =>
    by_cases hl : l = []
    · subst hl
      exact ⟨s, _, [], displayPlaylist_nil hp.head_nil fuel, hp⟩
    · exact ⟨s, _, l, displayPlaylist_spec hp hl hf, hp⟩
  | playCurrent =>
    by_cases hl : l = []
    · subst hl
      exact ⟨s, _, [], playCurrent_nil hp.current_nil, hp⟩
    · exact ⟨s, _, l, playCurrent_spec hp hl, hp⟩
  | playNext =>
    by_cases hl : l = []
    · subst hl
      exact ⟨s, [Out.noSongs], [], by simp [exec, playNext, hp.current_nil], hp⟩
    · obtain ⟨i, hi⟩ := List.getElem?_of_mem (hp.current_in hl)
      obtain ⟨c1, -, h1, h2⟩ := playNext_spec hp hi
      exact ⟨_, _, l, h1, h2⟩
  | playPrevious =>
    by_cases hl : l = []
    · subst hl
      exact ⟨s, [Out.noSongs], [], by simp [exec, playPrevious, hp.current_nil], hp⟩
    · obtain ⟨i, hi⟩ := List.getElem?_of_mem (hp.current_in hl)
      obtain ⟨c1, -, h1, h2⟩ := playPrevious_spec hp hi hf
      exact ⟨_, _, l, h1, h2⟩
  | freePlaylist =>
    by_cases hl : l = []
    · subst hl
      exact ⟨s, _, [], freePlaylist_nil hp.head_nil fuel, hp⟩
    · exact ⟨_, _, [], freePlaylist_spec hp hl hf, isPlaylist_init⟩

theorem exec_preserves {s : State} {l : List Ptr} (hp : IsPlaylist s l) {c : Call}
    (hm : MallocOk s c) {fuel : Nat} {s1 : State} {out : List Out}
    (he : exec fuel c s = some (s1, out)) : ∃ l1, IsPlaylist s1 l1 := by
  obtain ⟨s2, out2, l2, h2, hp2⟩ := exec_spec hp hm (le_max_right fuel l.length)
  have := exec_mono (le_max_left fuel l.length) he
  rw [this] at h2
  cases h2
  exact ⟨l2, hp2⟩

/-- Every reachable state is a well-formed playlist. -/
theorem reachable_isPlaylist {s : State} (hr : Reachable s) : ∃ l, IsPlaylist s l := by
  induction hr with
  | init => exact ⟨[], isPlaylist_init⟩
  | step c fuel _ hm he ih =>
    obtain ⟨l, hp⟩ := ih
    exact exec_preserves hp hm he

theorem seg_unique {h : Heap} {l l1 : List Ptr} {p q q1 : Ptr} (hs : Seg h p l q)
    (hs1 : Seg h p l1 q1) (hlen : l.length = l1.length) : l = l1 := by
  induction l generalizing p l1 with
  | nil =>
    cases l1 with
    | nil => rfl
    | cons b l1 => simp at hlen
  | cons a l ih =>
    cases l1 with
    | nil => simp at hlen
    | cons b l1 =>
      obtain ⟨rfl, n, hn, hr⟩ := hs
      obtain ⟨rfl, n1, hn1, hr1⟩ := hs1
      rw [hn] at hn1; cases hn1
      rw [ih hr hr1 (by simpa using hlen)]

/-- The head-order sequence of a state is unique. -/
theorem IsPlaylist.unique {s : State} {l l1 : List Ptr} (hp : IsPlaylist s l)
    (hp1 : IsPlaylist s l1) : l = l1 := by
  have hperm : l.Perm l1 :=
    (List.perm_ext_iff_of_nodup hp.nodup hp1.nodup).2
      (fun a => (hp.live a).trans (hp1.live a).symm)
  exact seg_unique hp.cycle hp1.cycle hperm.length_eq

/-! ## Checking concrete states -/

theorem segCheck_iff {h : Heap} {l : List Ptr} {p q : Ptr} :
    segCheck h p l q = true ↔ Seg h p l q := by
  induction l generalizing p with
  | nil => simp [segCheck]
  | cons a l ih =>
    simp only [segCheck, Bool.and_eq_true, decide_eq_true_eq, seg_cons]
    cases hn : h a with
    | none => simp
    | some n => simp [ih]

theorem seg_initial {h : Heap} {l l1 : List Ptr} {p q q1 : Ptr} (hs : Seg h p l q)
    (hs1 : Seg h p l1 q1) (hlen : l.length ≤ l1.length) :
    ∃ r, l1 = l ++ r ∧ Seg h q r q1 := by
  induction l generalizing p l1 with
  | nil =>
    simp only [seg_nil] at hs
    exact ⟨l1, rfl, hs ▸ hs1⟩
  | cons a l ih =>
    cases l1 with
    | nil => simp at hlen
    | cons b l1 =>
      obtain ⟨rfl, n, hn, hr⟩ := hs
      obtain ⟨rfl, n1, hn1, hr1⟩ := hs1
      rw [hn] at hn1; cases hn1
      obtain ⟨r, rfl, hrr⟩ := ih hr hr1 (by simpa using hlen)
      exact ⟨r, rfl, hrr⟩

theorem cycle_initial_eq {h : Heap} {l l1 : List Ptr} {p : Ptr} (hs : Seg h p l p)
    (hs1 : Seg h p l1 p) (hl : l ≠ []) (hnd1 : l1.Nodup) (hlen : l.length ≤ l1.length) :
    l = l1 := by
  obtain ⟨r, rfl, hr⟩ := seg_initial hs hs1 hlen
  cases r with
  | nil => simp
  | cons c r =>
    exfalso
    have hc : p = c := hr.1
    cases l with
    | nil => exact hl rfl
    | cons a l =>
      have ha : p = a := hs.1
      subst hc; subst ha
      simp [List.nodup_append] at hnd1

theorem cycle_unique {h : Heap} {l l1 : List Ptr} {p : Ptr} (hs : Seg h p l p)
    (hs1 : Seg h p l1 p) (hl : l ≠ []) (hl1 : l1 ≠ []) (hnd : l.Nodup) (hnd1 : l1.Nodup) :
    l = l1 := by
  rcases Nat.le_total l.length l1.length with hle | hle
  · exact cycle_initial_eq hs hs1 hl hnd1 hle
  · exact (cycle_initial_eq hs1 hs hl1 hnd hle).symm

/-- A reachable state whose `next` links lead from `head` through the distinct
nodes `l` and back to `head` has head-order sequence `l`. -/
theorem isPlaylist_of_check {s : State} (hr : Reachable s) {l : List Ptr} (hl : l ≠ [])
    (hnd : l.Nodup) (hc : segCheck s.heap s.head l s.head = true) : IsPlaylist s l := by
  obtain ⟨l1, hp⟩ := reachable_isPlaylist hr
  have hs := segCheck_iff.1 hc
  have hl1 : l1 ≠ [] := by
    rintro rfl
    cases l with
    | nil => exact hl rfl
    | cons a l =>
      obtain ⟨-, n, hn, -⟩ := hs
      rw [hp.heap_nil a] at hn
      cases hn
  rw [cycle_unique hs hp.cycle hl hl1 hnd hp.nodup]
  exact hp

theorem reachable_run {fuel : Nat} {cs : List Call} {s s1 : State} {out : List Out}
    (hr : Reachable s) (h : run fuel cs s = some (s1, out)) : Reachable s1 := by
  induction cs generalizing s out with
  | nil => simp only [run, Option.some.injEq, Prod.mk.injEq] at h; exact h.1 ▸ hr
  | cons c cs ih =>
    simp only [run] at h
    split at h
    · rename_i hm
      cases he : exec fuel c s with
      | none => simp [he] at h
      | some r =>
        obtain ⟨s2, o2⟩ := r
        simp only [he] at h
        cases hrun : run fuel cs s2 with
        | none => simp [hrun] at h
        | some r2 =>
          obtain ⟨s3, o3⟩ := r2
          simp only [hrun, Option.some.injEq, Prod.mk.injEq] at h
          obtain ⟨rfl, -⟩ := h
          exact ih (Reachable.step c fuel hr hm he) hrun
    · simp at h

/-- The state after a run from program start is reachable. -/
theorem reachable_stateAfter (fuel : Nat) (cs : List Call) : Reachable (stateAfter fuel cs) := by
  unfold stateAfter
  split
  · exact Reachable.init
  · rename_i s out h
    exact reachable_run Reachable.init h

/-- In a playlist the `next` link of the last node is `head`. -/
theorem IsPlaylist.last_next {s : State} {l : List Ptr} (hp : IsPlaylist s l) {last : Ptr}
    (hlast : l.getLast? = some last) : ∃ n, s.heap last = some n ∧ n.next = s.head := by
  rcases List.eq_nil_or_concat l with rfl | ⟨m, x, hml⟩
  · simp at hlast
  rw [List.concat_eq_append] at hml; subst hml
  simp only [List.getLast?_append, List.getLast?_singleton, Option.or, Option.some.injEq] at hlast
  subst hlast
  obtain ⟨mid, -, hs2⟩ := seg_append.1 hp.cycle
  simp only [seg_cons, seg_nil] at hs2
  obtain ⟨-, n, hn, hnext⟩ := hs2
  exact ⟨n, hn, hnext⟩

theorem IsPlaylist.titleAt_eq {s s1 : State} {p : Ptr}
    (h : (s1.heap p).map Song.title = (s.heap p).map Song.title) :
    titleAt s1.heap p = titleAt s.heap p := by
  unfold titleAt
  cases h1 : s1.heap p <;> cases h0 : s.heap p <;> simp_all

/-! ## The invariants (C1, C2) -/

/-- C1 (circularity invariant).  In every reachable state the live songs form
a list `l` without repetition, of length `N`, such that from every song of `l`
following `next` links `N` times comes back to that song, following them `k`
times with `0 < k < N` does not, and the `next` link of every song of `l` is
again a (live) song of `l`. -/
theorem circularity_invariant (s : State) (hr : Reachable s) :
    ∃ l : List Ptr, IsPlaylist s l ∧
      ∀ p ∈ l, iterNext s.heap l.length p = some p ∧
        (∀ k, 0 < k → k < l.length → iterNext s.heap k p ≠ some p) ∧
        ∃ n, s.heap p = some n ∧ n.next ∈ l ∧ n.next ≠ NULL ∧ s.heap n.next ≠ none := by
  obtain ⟨l, hp⟩ := reachable_isPlaylist hr
  refine ⟨l, hp, ?_⟩
  intro p hpl
  obtain ⟨i, hi⟩ := List.getElem?_of_mem hpl
  have hil : i < l.length := (List.getElem?_eq_some_iff.1 hi).1
  refine ⟨?_, ?_, ?_⟩
  · obtain ⟨b, hb, hb'⟩ := hp.iterNext_get l.length i hi
    rw [Nat.add_mod_right, Nat.mod_eq_of_lt hil, hi] at hb'
    rw [hb, ← hb']
  · intro k hk0 hkN hk
    obtain ⟨b, hb, hb'⟩ := hp.iterNext_get k i hi
    rw [hk] at hb
    cases hb
    have hidx := List.getElem?_inj hil hp.nodup (hi.trans hb'.symm)
    rcases Nat.lt_or_ge (i + k) l.length with hlt | hge
    · rw [Nat.mod_eq_of_lt hlt] at hidx; omega
    · rw [Nat.mod_eq_sub_mod hge, Nat.mod_eq_of_lt (by omega)] at hidx; omega
  · obtain ⟨n, hn, hx⟩ := hp.next_get i hi
    have hm : n.next ∈ l := List.getElem?_mem hx
    exact ⟨n, hn, hm, hp.ne_null hm, (hp.live _).1 hm⟩

/-- Witness for C1: the playlist `[A, B, C]`. -/
theorem circularity_invariant_witness :
    Reachable stateABC ∧
    ∃ l : List Ptr, IsPlaylist stateABC l ∧
      ∀ p ∈ l, iterNext stateABC.heap l.length p = some p ∧
        (∀ k, 0 < k → k < l.length → iterNext stateABC.heap k p ≠ some p) ∧
        ∃ n, stateABC.heap p = some n ∧ n.next ∈ l ∧ n.next ≠ NULL ∧
          stateABC.heap n.next ≠ none :=
  ⟨reachable_stateAfter 3 callsABC,
   circularity_invariant stateABC (reachable_stateAfter 3 callsABC)⟩

/-- C2 (cursor validity).  In every reachable state exactly one of two things
holds: the playlist is empty (`head` is `NULL`, no song is live) and `current`
is `NULL`; or the playlist is not empty and `current` is a live song that is
met when following `next` links from `head` once around the circle. -/
theorem cursor_validity (s : State) (hr : Reachable s) :
    ∃ l : List Ptr, IsPlaylist s l ∧
      Xor' (s.head = NULL ∧ l = [] ∧ s.current = NULL)
        (s.head ≠ NULL ∧ l ≠ [] ∧ s.current ≠ NULL ∧ s.current ∈ l ∧
          ∃ k, k < l.length ∧ iterNext s.heap k s.head = some s.current) := by
  obtain ⟨l, hp⟩ := reachable_isPlaylist hr
  refine ⟨l, hp, ?_⟩
  by_cases hl : l = []
  · subst hl
    exact Or.inl ⟨⟨hp.head_nil, rfl, hp.current_nil⟩, fun h => h.2.1 rfl⟩
  · refine Or.inr ⟨?_, fun h => hl h.2.1⟩
    have hc := hp.current_in hl
    refine ⟨hp.head_ne_null hl, hl, hp.ne_null hc, hc, ?_⟩
    obtain ⟨k, hk⟩ := List.getElem?_of_mem hc
    have hkl : k < l.length := (List.getElem?_eq_some_iff.1 hk).1
    have h0 : l[0]? = some s.head := by
      rw [hp.head_eq]; cases l with
      | nil => exact absurd rfl hl
      | cons a r => simp
    obtain ⟨b, hb, hb'⟩ := hp.iterNext_get k 0 h0
    rw [Nat.zero_add, Nat.mod_eq_of_lt hkl, hk] at hb'
    exact ⟨k, hkl, by rw [hb, ← hb']⟩

/-- Witness for C2: the playlist `[A, B, C]` with the cursor on `B`. -/
theorem cursor_validity_witness :
    Reachable stateB ∧
    ∃ l : List Ptr, IsPlaylist stateB l ∧
      Xor' (stateB.head = NULL ∧ l = [] ∧ stateB.current = NULL)
        (stateB.head ≠ NULL ∧ l ≠ [] ∧ stateB.current ≠ NULL ∧ stateB.current ∈ l ∧
          ∃ k, k < l.length ∧ iterNext stateB.heap k stateB.head = some stateB.current) :=
  ⟨reachable_stateAfter 3 _, cursor_validity stateB (reachable_stateAfter 3 _)⟩

/-! ## Adding songs (C3, C4) -/

theorem run_append {fuel : Nat} {cs cs1 : List Call} {s s1 s2 : State} {o1 o2 : List Out}
    (h1 : run fuel cs s = some (s1, o1)) (h2 : run fuel cs1 s1 = some (s2, o2)) :
    run fuel (cs ++ cs1) s = some (s2, o1 ++ o2) := by
  induction cs generalizing s o1 with
  | nil =>
    simp only [run, Option.some.injEq, Prod.mk.injEq] at h1
    obtain ⟨rfl, rfl⟩ := h1
    simpa using h2
  | cons c cs ih =>
    simp only [run, List.cons_append] at h1 ⊢
    split at h1
    · rename_i hm
      rw [if_pos hm]
      cases he : exec fuel c s with
      | none => simp [he] at h1
      | some r =>
        obtain ⟨s3, o3⟩ := r
        simp only [he] at h1 ⊢
        cases hrun : run fuel cs s3 with
        | none => simp [hrun] at h1
        | some r2 =>
          obtain ⟨s4, o4⟩ := r2
          simp only [hrun, Option.some.injEq, Prod.mk.injEq] at h1
          obtain ⟨rfl, rfl⟩ := h1
          have := ih hrun
          simp only [List.append_eq] at this ⊢
          rw [this]
          simp
    · simp at h1

/-- After adding songs to the empty playlist, the head-order sequence is the
sequence of the nodes added, each holding the stored form of its title, and
the cursor is on the first. -/
theorem adds_spec (adds : List (Ptr × List Nat)) (fuel : Nat)
    (hnd : (adds.map Prod.fst).Nodup) (hnn : NULL ∉ adds.map Prod.fst)
    (hf : adds.length ≤ fuel) :
    ∃ s out, run fuel (addCalls adds) init = some (s, out) ∧
      IsPlaylist s (adds.map Prod.fst) ∧
      (adds.map Prod.fst).map (titleAt s.heap) = (adds.map Prod.snd).map stored ∧
      s.current = (adds.map Prod.fst).headD NULL := by
  induction adds using List.reverseRecOn with
  | nil => exact ⟨init, [], rfl, isPlaylist_init, rfl, rfl⟩
  | append_singleton adds a ih =>
    simp only [List.map_append, List.map_cons, List.map_nil, List.nodup_append,
      List.mem_append, List.mem_singleton, not_or] at hnd hnn
    obtain ⟨s, out, hrun, hp, htitles, hcur⟩ := ih hnd.1 hnn.1 (by simp at hf; omega)
    have hfresh : s.heap a.1 = none := by
      by_contra hc
      exact hnd.2.2 ((hp.live _).2 hc) (List.mem_singleton_self _)
    have hn : a.1 ≠ NULL := fun h => hnn.2 h.symm
    obtain ⟨s1, h1, h2, h3, h4, h5, h6⟩ := addSong_spec hp hn hfresh a.2
      (show (adds.map Prod.fst).length ≤ fuel by simp at hf ⊢; omega)
    have hstep : run fuel [Call.addSong a.1 a.2] s =
        some (s1, [Out.added (List.take (TITLE_LEN - 1) (cstr a.2))] ++ []) := by
      have hm : MallocOk s (Call.addSong a.1 a.2) := fun _ => hfresh
      simp only [run, hm, if_true, exec, h1]
    have hrun1 : run fuel (addCalls (adds ++ [a])) init =
        some (s1, out ++ ([Out.added (List.take (TITLE_LEN - 1) (cstr a.2))] ++ [])) := by
      simp only [addCalls, List.map_append, List.map_cons, List.map_nil]
      exact run_append hrun hstep
    refine ⟨s1, _, hrun1, by simpa using h2, ?_, ?_⟩
    · simp only [List.map_append, List.map_cons, List.map_nil]
      congr 1
      · rw [← htitles]
        apply List.map_congr_left
        intro p hpm
        apply IsPlaylist.titleAt_eq
        apply h4
        rintro rfl
        exact hnd.2.2 hpm (List.mem_singleton_self _)
      · simp [titleAt, h3, cstr_stored, stored]
    · rw [h6, hcur]
      cases adds with
      | nil => simp
      | cons b adds => simp

theorem map_displayLine {s : State} {a : Ptr} {r : List Ptr} (hnd : (a :: r).Nodup)
    (hc : s.current = a) :
    (a :: r).map (displayLine s) =
      Out.currentLine (titleAt s.heap a) :: r.map (fun p => Out.plainLine (titleAt s.heap p)) := by
  rw [List.map_cons]
  congr 1
  · simp [displayLine, hc]
  apply List.map_congr_left
  intro p hp
  have : p ≠ a := fun h => (List.nodup_cons.1 hnd).1 (h ▸ hp)
  simp [displayLine, hc, this]

/-- C3 (postcondition of `addSong`).  On a reachable state with head-order
sequence `l`, when `malloc` returns a fresh address `node`, `addSong` returns
(given fuel for one round of the circle); afterwards the head-order sequence
is `l` followed by `node`, `node` holds the stored form of the title and its
`next` link is `head`, and the titles of the other songs are unchanged.  If
`l` was empty, `node` is `head` and `current`; otherwise `head` and `current`
are unchanged. -/
theorem addSong_appends (s : State) (l : List Ptr) (node : Ptr) (title : List Nat) (fuel : Nat)
    (hr : Reachable s) (hp : IsPlaylist s l) (hn : node ≠ NULL) (hfresh : s.heap node = none)
    (hf : l.length ≤ fuel) :
    ∃ s1, addSong fuel node title s = some (s1, [Out.added (stored title)]) ∧
      Reachable s1 ∧
      IsPlaylist s1 (l ++ [node]) ∧
      titleAt s1.heap node = stored title ∧
      (∀ p ∈ l, titleAt s1.heap p = titleAt s.heap p) ∧
      (∃ n, s1.heap node = some n ∧ n.next = s1.head) ∧
      (l = [] → s1.head = node ∧ s1.current = node) ∧
      (l ≠ [] → s1.head = s.head ∧ s1.current = s.current) := by
  obtain ⟨s1, h1, h2, h3, h4, h5, h6⟩ := addSong_spec hp hn hfresh title hf
  have hnl : node ∉ l := fun hm => (hp.live _).1 hm hfresh
  refine ⟨s1, h1, ?_, h2, ?_, ?_, ⟨_, h3, rfl⟩, ?_, ?_⟩
  · exact Reachable.step (Call.addSong node title) fuel hr (fun _ => hfresh) h1
  · simp [titleAt, h3, cstr_stored, stored]
  · intro p hpl
    exact IsPlaylist.titleAt_eq (h4 p (fun h => hnl (h ▸ hpl)))
  · rintro rfl
    simpa using And.intro h5 h6
  · intro hl
    refine ⟨?_, by simpa [hl] using h6⟩
    rw [h5, hp.head_eq]
    cases l with
    | nil => exact absurd rfl hl
    | cons a r => simp

/-- Witness for C3: adding `X` at address 4 to the playlist `[A, B, C]`. -/
theorem addSong_appends_witness :
    Reachable stateABC ∧ IsPlaylist stateABC [1, 2, 3] ∧ (4 : Ptr) ≠ NULL ∧
    stateABC.heap 4 = none ∧ [1, 2, 3].length ≤ 3 ∧
    ∃ s1, addSong 3 4 titleX stateABC = some (s1, [Out.added (stored titleX)]) ∧
      Reachable s1 ∧
      IsPlaylist s1 ([1, 2, 3] ++ [4]) ∧
      titleAt s1.heap 4 = stored titleX ∧
      (∀ p ∈ [1, 2, 3], titleAt s1.heap p = titleAt stateABC.heap p) ∧
      (∃ n, s1.heap 4 = some n ∧ n.next = s1.head) ∧
      (([1, 2, 3] : List Ptr) = [] → s1.head = 4 ∧ s1.current = 4) ∧
      (([1, 2, 3] : List Ptr) ≠ [] → s1.head = stateABC.head ∧ s1.current = stateABC.current) :=
  ⟨reachable_stateAfter 3 callsABC,
   isPlaylist_of_check (reachable_stateAfter 3 callsABC) (by decide) (by decide) (by decide),
   by decide, by decide, by decide,
   addSong_appends stateABC [1, 2, 3] 4 titleX 3 (reachable_stateAfter 3 callsABC)
     (isPlaylist_of_check (reachable_stateAfter 3 callsABC) (by decide) (by decide) (by decide))
     (by decide) (by decide) (by decide)⟩

/-- C4 (display after `K` adds).  Starting from the empty playlist and adding
`K` titles in turn (each `malloc` returning a fresh address), the run returns,
and `displayPlaylist` then prints exactly one line per title added, in the
order of insertion, the first one marked as current (for `K = 0` it prints
that the playlist is empty); the `next` link of the last song added is the
first song added. -/
theorem display_after_adds (adds : List (Ptr × List Nat)) (fuel : Nat)
    (hnd : (adds.map Prod.fst).Nodup) (hnn : NULL ∉ adds.map Prod.fst)
    (hf : adds.length ≤ fuel) :
    ∃ s out, run fuel (addCalls adds) init = some (s, out) ∧
      IsPlaylist s (adds.map Prod.fst) ∧
      displayPlaylist fuel s = some (s, expectedDisplay (adds.map Prod.snd)) ∧
      (adds ≠ [] → (expectedDisplay (adds.map Prod.snd)).length = adds.length + 2) ∧
      ∀ first last, (adds.map Prod.fst).head? = some first →
        (adds.map Prod.fst).getLast? = some last →
        ∃ n, s.heap last = some n ∧ n.next = first := by
  obtain ⟨s, out, hrun, hp, htitles, hcur⟩ := adds_spec adds fuel hnd hnn hf
  refine ⟨s, out, hrun, hp, ?_, ?_, ?_⟩
  · cases adds with
    | nil => exact displayPlaylist_nil hp.head_nil fuel
    | cons a adds =>
      rw [displayPlaylist_spec hp (by simp) (by simpa using hf)]
      simp only [List.map_cons, List.cons.injEq] at htitles hcur hnd ⊢
      rw [← List.map_cons, map_displayLine hnd (by simpa using hcur)]
      simp only [expectedDisplay, ← htitles.1]
      have : List.map (fun p => Out.plainLine (titleAt s.heap p)) (List.map Prod.fst adds) =
          List.map (fun u => Out.plainLine (stored u)) (List.map Prod.snd adds) := by
        have := congrArg (List.map Out.plainLine) htitles.2
        simpa [List.map_map, Function.comp_def] using this
      rw [this]
  · intro hne
    cases adds with
    | nil => exact absurd rfl hne
    | cons a adds => simp [expectedDisplay]
  · intro first last hfirst hlast
    obtain ⟨n, hn, hnext⟩ := hp.last_next hlast
    refine ⟨n, hn, ?_⟩
    rw [hnext, hp.head_eq]
    cases adds with
    | nil => simp at hfirst
    | cons a adds => simpa using hfirst

/-- Witness for C4: adding `A`, `B`, `C` at the addresses 1, 2, 3. -/
theorem display_after_adds_witness :
    ([(1, titleA), (2, titleB), (3, titleC)].map Prod.fst).Nodup ∧
    NULL ∉ [(1, titleA), (2, titleB), (3, titleC)].map Prod.fst ∧
    [(1, titleA), (2, titleB), (3, titleC)].length ≤ 3 ∧
    ∃ s out, run 3 (addCalls [(1, titleA), (2, titleB), (3, titleC)]) init = some (s, out) ∧
      IsPlaylist s ([(1, titleA), (2, titleB), (3, titleC)].map Prod.fst) ∧
      displayPlaylist 3 s =
        some (s, expectedDisplay ([(1, titleA), (2, titleB), (3, titleC)].map Prod.snd)) ∧
      ([(1, titleA), (2, titleB), (3, titleC)] ≠ [] →
        (expectedDisplay ([(1, titleA), (2, titleB), (3, titleC)].map Prod.snd)).length =
          [(1, titleA), (2, titleB), (3, titleC)].length + 2) ∧
      ∀ first last, ([(1, titleA), (2, titleB), (3, titleC)].map Prod.fst).head? = some first →
        ([(1, titleA), (2, titleB), (3, titleC)].map Prod.fst).getLast? = some last →
        ∃ n, s.heap last = some n ∧ n.next = first :=
  ⟨by decide, by decide, by decide,
   display_after_adds [(1, titleA), (2, titleB), (3, titleC)] 3 (by decide) (by decide)
     (by decide)⟩

/-! ## Removing songs (C5, C6, C7) -/

/-- C5 (postcondition of a successful `removeSong`).  On a reachable state
with head-order sequence `l` in which some song has the title searched for,
`removeSong` returns (given fuel for one round of the circle) and reports the
removal; `l` splits as `pre ++ x :: post` with `x` the first song from `head`
having that title, `x` is freed, and afterwards the head-order sequence is
`pre ++ post` with every title unchanged.  When `x` was the head and other
songs exist, the new head is the former successor of `x` and the `next` link
of the former tail, which was `x`, is the new head. -/
theorem removeSong_removes_first (s : State) (l : List Ptr) (title : List Nat) (fuel : Nat)
    (hr : Reachable s) (hp : IsPlaylist s l)
    (hex : ∃ p ∈ l, titleAt s.heap p = cstr title) (hf : l.length ≤ fuel) :
    ∃ pre x post s1, l = pre ++ x :: post ∧
      (∀ p ∈ pre, titleAt s.heap p ≠ cstr title) ∧ titleAt s.heap x = cstr title ∧
      removeSong fuel title s = some (s1, [Out.removed (cstr title)]) ∧
      Reachable s1 ∧
      IsPlaylist s1 (pre ++ post) ∧
      s1.heap x = none ∧
      (∀ p ∈ pre ++ post, titleAt s1.heap p = titleAt s.heap p) ∧
      (pre = [] → ∀ y r, post = y :: r →
        s1.head = y ∧ (∃ n, s.heap x = some n ∧ n.next = y) ∧
        ∀ tail, post.getLast? = some tail →
          (∃ n, s.heap tail = some n ∧ n.next = x) ∧ ∃ n, s1.heap tail = some n ∧ n.next = y) := by
  obtain ⟨pre, x, post, rfl, hpre, hx⟩ := exists_first_match _ l hex
  obtain ⟨s1, h1, h2, h3, h4, h5⟩ := removeSong_found hp hpre hx hf
  have hxn : x ∉ pre ++ post := by
    have := hp.nodup
    intro hm
    rcases List.mem_append.1 hm with hm | hm <;> simp [List.nodup_append, hm] at this
  refine ⟨pre, x, post, s1, rfl, hpre, hx, h1, ?_, h2, h3, ?_, ?_⟩
  · exact Reachable.step (Call.removeSong title) fuel hr trivial h1
  · intro p hpm
    exact IsPlaylist.titleAt_eq (h4 p (fun h => hxn (h ▸ hpm)))
  · rintro rfl y r rfl
    have hh1 : s1.head = y := by simpa using h2.head_eq
    refine ⟨hh1, ?_, ?_⟩
    · obtain ⟨n, hn, hnx⟩ := hp.next_get 0 (a := x) (by simp)
      refine ⟨n, hn, ?_⟩
      simpa using hnx.symm
    · intro tail htail
      constructor
      · obtain ⟨n, hn, hnx⟩ := hp.last_next
          (show ([] ++ x :: y :: r).getLast? = some tail by
            simpa [List.getLast?_cons_cons] using htail)
        exact ⟨n, hn, by rw [hnx]; simpa using hp.head_eq⟩
      · obtain ⟨n, hn, hnx⟩ := h2.last_next
          (show ([] ++ y :: r).getLast? = some tail by simpa using htail)
        exact ⟨n, hn, by rw [hnx, hh1]⟩

/-- Witness for C5: removing `B` from the playlist `[A, B, C]`. -/
theorem removeSong_removes_first_witness :
    Reachable stateABC ∧ IsPlaylist stateABC [1, 2, 3] ∧
    (∃ p ∈ [1, 2, 3], titleAt stateABC.heap p = cstr titleB) ∧ [1, 2, 3].length ≤ 3 ∧
    ∃ pre x post s1, [1, 2, 3] = pre ++ x :: post ∧
      (∀ p ∈ pre, titleAt stateABC.heap p ≠ cstr titleB) ∧
      titleAt stateABC.heap x = cstr titleB ∧
      removeSong 3 titleB stateABC = some (s1, [Out.removed (cstr titleB)]) ∧
      Reachable s1 ∧
      IsPlaylist s1 (pre ++ post) ∧
      s1.heap x = none ∧
      (∀ p ∈ pre ++ post, titleAt s1.heap p = titleAt stateABC.heap p) ∧
      (pre = [] → ∀ y r, post = y :: r →
        s1.head = y ∧ (∃ n, stateABC.heap x = some n ∧ n.next = y) ∧
        ∀ tail, post.getLast? = some tail →
          (∃ n, stateABC.heap tail = some n ∧ n.next = x) ∧
            ∃ n, s1.heap tail = some n ∧ n.next = y) :=
  ⟨reachable_stateAfter 3 callsABC,
   isPlaylist_of_check (reachable_stateAfter 3 callsABC) (by decide) (by decide) (by decide),
   by decide, by decide,
   removeSong_removes_first stateABC [1, 2, 3] titleB 3 (reachable_stateAfter 3 callsABC)
     (isPlaylist_of_check (reachable_stateAfter 3 callsABC) (by decide) (by decide) (by decide))
     (by decide) (by decide)⟩

/-- C6 (cursor after removing the current song).  On a reachable state whose
head-order sequence is `pre ++ x :: post`, where `x` is the song the cursor is
on and the first song from `head` with the title searched for: `removeSong`
returns and removes `x`.  If other songs remain, the cursor is then the former
successor of `x` (the `next` link `x` had): the first song of `post`, or, when
`x` was the tail, the head; when `x` was the head it is the new head.  If `x`
was the only song, `current` and `head` are `NULL`. -/
theorem removeSong_cursor (s : State) (pre post : List Ptr) (x : Ptr) (title : List Nat)
    (fuel : Nat) (hr : Reachable s) (hp : IsPlaylist s (pre ++ x :: post))
    (hc : s.current = x) (hpre : ∀ p ∈ pre, titleAt s.heap p ≠ cstr title)
    (hx : titleAt s.heap x = cstr title) (hf : (pre ++ x :: post).length ≤ fuel) :
    ∃ s1, removeSong fuel title s = some (s1, [Out.removed (cstr title)]) ∧
      Reachable s1 ∧
      IsPlaylist s1 (pre ++ post) ∧
      (pre ++ post ≠ [] →
        (∃ n, s.heap x = some n ∧ n.next = s1.current) ∧
        s1.current ∈ pre ++ post ∧
        (post ++ pre).head? = some s1.current ∧
        (post = [] → s1.current = s.head) ∧
        (pre = [] → s1.current = s1.head)) ∧
      (pre ++ post = [] → s1.current = NULL ∧ s1.head = NULL) := by
  obtain ⟨s1, h1, h2, h3, h4, h5⟩ := removeSong_found hp hpre hx hf
  rw [if_pos hc] at h5
  refine ⟨s1, h1, Reachable.step (Call.removeSong title) fuel hr trivial h1, h2, ?_, ?_⟩
  · intro hne
    have hhead : (post ++ pre).head? = some s1.current := by
      rw [h5]
      cases hpp : post ++ pre with
      | nil => simp at hpp; simp [hpp] at hne
      | cons a r => simp
    refine ⟨?_, ?_, hhead, ?_, ?_⟩
    · have hi : (pre ++ x :: post)[pre.length]? = some x := by
        rw [List.getElem?_append_right (le_refl _)]; simp
      obtain ⟨n, hn, hnx⟩ := hp.next_get pre.length hi
      refine ⟨n, hn, ?_⟩
      rw [h5]
      cases post with
      | nil =>
        have : (pre.length + 1) % (pre ++ [x]).length = 0 := by simp
        rw [this] at hnx
        cases pre with
        | nil => simp at hne
        | cons a r => simp at hnx ⊢; exact hnx.symm
      | cons b post =>
        have : (pre.length + 1) % (pre ++ x :: b :: post).length = pre.length + 1 := by
          apply Nat.mod_eq_of_lt; simp
        rw [this] at hnx
        have hb : (pre ++ x :: b :: post)[pre.length + 1]? = some b := by
          rw [List.getElem?_append_right (by omega)]; simp
        rw [hb] at hnx
        simpa using (Option.some.inj hnx).symm
    · have := List.mem_of_mem_head? hhead
      simp only [List.mem_append] at this ⊢
      tauto
    · rintro rfl
      rw [h5, hp.head_eq]
      cases pre with
      | nil => simp at hne
      | cons a r => simp
    · rintro rfl
      rw [h5, h2.head_eq]
      simp
  · intro hnil
    simp only [List.append_eq_nil] at hnil
    obtain ⟨rfl, rfl⟩ := hnil
    exact ⟨by simpa using h5, by simpa using h2.head_eq⟩

/-- Witness for C6: add `A`, `B`, `C`; `playNext` puts the cursor on `B`;
removing `B` puts the cursor on `C`, and the display is then `[A, C]`. -/
theorem removeSong_cursor_witness :
    Reachable stateB ∧ IsPlaylist stateB ([1] ++ 2 :: [3]) ∧ stateB.current = 2 ∧
    (∀ p ∈ [1], titleAt stateB.heap p ≠ cstr titleB) ∧
    titleAt stateB.heap 2 = cstr titleB ∧ ([1] ++ 2 :: [3]).length ≤ 3 ∧
    (∃ s1, removeSong 3 titleB stateB = some (s1, [Out.removed (cstr titleB)]) ∧
      Reachable s1 ∧
      IsPlaylist s1 ([1] ++ [3]) ∧
      (([1] ++ [3] : List Ptr) ≠ [] →
        (∃ n, stateB.heap 2 = some n ∧ n.next = s1.current) ∧
        s1.current ∈ ([1] ++ [3] : List Ptr) ∧
        (([3] ++ [1] : List Ptr)).head? = some s1.current ∧
        (([3] : List Ptr) = [] → s1.current = stateB.head) ∧
        (([1] : List Ptr) = [] → s1.current = s1.head)) ∧
      (([1] ++ [3] : List Ptr) = [] → s1.current = NULL ∧ s1.head = NULL)) ∧
    outputOf 3 (callsABC ++ [Call.playNext, Call.removeSong titleB, Call.displayPlaylist]) =
      some [Out.added titleA, Out.added titleB, Out.added titleC, Out.nowPlaying titleB,
        Out.removed titleB, Out.header, Out.plainLine titleA, Out.currentLine titleC,
        Out.footer] :=
  ⟨reachable_stateAfter 3 _,
   isPlaylist_of_check (reachable_stateAfter 3 _) (by decide) (by decide) (by decide),
   by decide, by decide, by decide, by decide,
   removeSong_cursor stateB [1] [3] 2 titleB 3 (reachable_stateAfter 3 _)
     (isPlaylist_of_check (reachable_stateAfter 3 _) (by decide) (by decide) (by decide))
     (by decide) (by decide) (by decide) (by decide),
   by decide⟩

/-- C7 (`removeSong` of an absent title).  On a reachable state with a
non-empty head-order sequence `l` in which no song holds the title searched
for, `removeSong` returns (given fuel for one round of the circle), reports
that the song was not found, and leaves the state as it was. -/
theorem removeSong_absent (s : State) (l : List Ptr) (title : List Nat) (fuel : Nat)
    (_hr : Reachable s) (hp : IsPlaylist s l) (hl : l ≠ [])
    (hno : ∀ p ∈ l, titleAt s.heap p ≠ cstr title) (hf : l.length ≤ fuel) :
    removeSong fuel title s = some (s, [Out.notFound (cstr title)]) :=
  removeSong_notFound hp hl hno hf

/-- Witness for C7: removing `X` from the playlist `[A, C]`. -/
theorem removeSong_absent_witness :
    Reachable stateAC ∧ IsPlaylist stateAC [1, 3] ∧ ([1, 3] : List Ptr) ≠ [] ∧
    (∀ p ∈ [1, 3], titleAt stateAC.heap p ≠ cstr titleX) ∧ [1, 3].length ≤ 2 ∧
    removeSong 2 titleX stateAC = some (stateAC, [Out.notFound (cstr titleX)]) :=
  ⟨reachable_stateAfter 3 _,
   isPlaylist_of_check (reachable_stateAfter 3 _) (by decide) (by decide) (by decide),
   by decide, by decide, by decide,
   removeSong_absent stateAC [1, 3] titleX 2 (reachable_stateAfter 3 _)
     (isPlaylist_of_check (reachable_stateAfter 3 _) (by decide) (by decide) (by decide))
     (by decide) (by decide) (by decide)⟩

/-! ## The empty playlist (C8) -/

/-- C8 (operations on the empty playlist).  When `head` and `current` are
`NULL`, `removeSong` reports that the playlist is empty, and `playCurrent`,
`playNext` and `playPrevious` report that there is nothing to play; each of
them returns with any fuel and leaves the state as it was. -/
theorem empty_playlist_calls (s : State) (title : List Nat) (fuel : Nat)
    (hh : s.head = NULL) (hc : s.current = NULL) :
    removeSong fuel title s = some (s, [Out.playlistEmpty]) ∧
    playCurrent s = some (s, [Out.noSongs]) ∧
    playNext s = some (s, [Out.noSongs]) ∧
    playPrevious fuel s = some (s, [Out.noSongs]) := by
  refine ⟨removeSong_empty fuel title hh, playCurrent_nil hc, ?_, ?_⟩
  · simp [playNext, hc]
  · simp [playPrevious, hc]

/-- Witness for C8: the state at program start. -/
theorem empty_playlist_calls_witness :
    init.head = NULL ∧ init.current = NULL ∧
    removeSong 0 titleA init = some (init, [Out.playlistEmpty]) ∧
    playCurrent init = some (init, [Out.noSongs]) ∧
    playNext init = some (init, [Out.noSongs]) ∧
    playPrevious 0 init = some (init, [Out.noSongs]) :=
  ⟨rfl, rfl, empty_playlist_calls init titleA 0 rfl rfl⟩

/-! ## Cursor moves (C9, C10) -/

/-- C9 (`playNext`).  On a reachable state with a non-empty head-order
sequence `l` of length `N`, the cursor being at position `i` of `l`,
`playNext` returns, moves the cursor to the song `c1` at position
`(i + 1) mod N`, which is the song the `next` link of the old cursor points
to (the head when the old cursor was the tail), changes nothing else, and
reports the title of `c1`. -/
theorem playNext_successor (s : State) (l : List Ptr) (hr : Reachable s)
    (hp : IsPlaylist s l) (hl : l ≠ []) :
    ∃ i c1, l[i]? = some s.current ∧ l[(i + 1) % l.length]? = some c1 ∧
      (∃ n, s.heap s.current = some n ∧ n.next = c1) ∧
      playNext s = some ({ s with current := c1 }, [Out.nowPlaying (titleAt s.heap c1)]) ∧
      Reachable { s with current := c1 } ∧
      (l.getLast? = some s.current → c1 = s.head) := by
  obtain ⟨i, hi⟩ := List.getElem?_of_mem (hp.current_in hl)
  obtain ⟨c1, hc1, hplay, -⟩ := playNext_spec hp hi
  obtain ⟨n, hn, hnx⟩ := hp.next_get i hi
  have hnc : n.next = c1 := Option.some.inj (hnx.symm.trans hc1)
  refine ⟨i, c1, hi, hc1, ⟨n, hn, hnc⟩, hplay,
    Reachable.step Call.playNext 0 hr trivial hplay, ?_⟩
  intro hlast
  obtain ⟨n1, hn1, hnx1⟩ := hp.last_next hlast
  rw [hn] at hn1; cases hn1
  rw [← hnc, hnx1]

/-- Witness for C9: the playlist `[A, B, C]` with the cursor on `A`. -/
theorem playNext_successor_witness :
    Reachable stateABC ∧ IsPlaylist stateABC [1, 2, 3] ∧ ([1, 2, 3] : List Ptr) ≠ [] ∧
    ∃ i c1, ([1, 2, 3] : List Ptr)[i]? = some stateABC.current ∧
      ([1, 2, 3] : List Ptr)[(i + 1) % [1, 2, 3].length]? = some c1 ∧
      (∃ n, stateABC.heap stateABC.current = some n ∧ n.next = c1) ∧
      playNext stateABC =
        some ({ stateABC with current := c1 }, [Out.nowPlaying (titleAt stateABC.heap c1)]) ∧
      Reachable { stateABC with current := c1 } ∧
      (([1, 2, 3] : List Ptr).getLast? = some stateABC.current → c1 = stateABC.head) :=
  ⟨reachable_stateAfter 3 _,
   isPlaylist_of_check (reachable_stateAfter 3 _) (by decide) (by decide) (by decide),
   by decide,
   playNext_successor stateABC [1, 2, 3] (reachable_stateAfter 3 _)
     (isPlaylist_of_check (reachable_stateAfter 3 _) (by decide) (by decide) (by decide))
     (by decide)⟩

theorem pred_mod_zero {N : Nat} (hN : 0 < N) : (0 + N - 1) % N = N - 1 := by
  rw [Nat.zero_add]
  exact Nat.mod_eq_of_lt (by omega)

theorem pred_mod_pos {i N : Nat} (hpos : 0 < i) (hi : i < N) : (i + N - 1) % N = i - 1 := by
  have h : i + N - 1 = (i - 1) + N := by omega
  rw [h, Nat.add_mod_right]
  exact Nat.mod_eq_of_lt (by omega)

theorem pred_mod_succ {i N : Nat} (hi : i < N) : ((i + N - 1) % N + 1) % N = i := by
  rcases Nat.eq_zero_or_pos i with h0 | hpos
  · subst h0
    rw [pred_mod_zero hi, Nat.sub_add_cancel hi, Nat.mod_self]
  · rw [pred_mod_pos hpos hi, Nat.sub_add_cancel hpos]
    exact Nat.mod_eq_of_lt hi

/-- C10 (`playPrevious`).  On a reachable state with a non-empty head-order
sequence `l` of length `N`, the cursor being at position `i` of `l`,
`playPrevious` returns (given fuel for one round of the circle), moves the
cursor to the song `c1` at position `(i + N - 1) mod N`, which is the one
live song whose `next` link is the old cursor (the tail when the old cursor
was the head), changes nothing else, and reports the title of `c1`. -/
theorem playPrevious_predecessor (s : State) (l : List Ptr) (fuel : Nat) (hr : Reachable s)
    (hp : IsPlaylist s l) (hl : l ≠ []) (hf : l.length ≤ fuel) :
    ∃ i c1, l[i]? = some s.current ∧ l[(i + l.length - 1) % l.length]? = some c1 ∧
      (∃ n, s.heap c1 = some n ∧ n.next = s.current) ∧
      (∀ p n, s.heap p = some n → n.next = s.current → p = c1) ∧
      playPrevious fuel s =
        some ({ s with current := c1 }, [Out.nowPlaying (titleAt s.heap c1)]) ∧
      Reachable { s with current := c1 } ∧
      (s.current = s.head → l.getLast? = some c1) := by
  obtain ⟨i, hi⟩ := List.getElem?_of_mem (hp.current_in hl)
  have hil : i < l.length := (List.getElem?_eq_some_iff.1 hi).1
  obtain ⟨c1, hc1, hplay, -⟩ := playPrevious_spec hp hi hf
  have hj : (i + l.length - 1) % l.length < l.length := Nat.mod_lt _ (by omega)
  have hback : ((i + l.length - 1) % l.length + 1) % l.length = i := pred_mod_succ hil
  refine ⟨i, c1, hi, hc1, ?_, ?_, hplay, Reachable.step Call.playPrevious fuel hr trivial hplay,
    ?_⟩
  · obtain ⟨n, hn, hnx⟩ := hp.next_get _ hc1
    rw [hback, hi] at hnx
    exact ⟨n, hn, (Option.some.inj hnx).symm⟩
  · intro p n hpn hnext
    have hpl : p ∈ l := (hp.live p).2 (by rw [hpn]; simp)
    obtain ⟨k, hk⟩ := List.getElem?_of_mem hpl
    have hkl : k < l.length := (List.getElem?_eq_some_iff.1 hk).1
    obtain ⟨n1, hn1, hnx⟩ := hp.next_get k hk
    rw [hpn] at hn1; cases hn1
    rw [hnext, ← hi] at hnx
    have hidx := List.getElem?_inj (Nat.mod_lt _ (by omega)) hp.nodup hnx
    have hkj : k = (i + l.length - 1) % l.length := by
      rcases Nat.lt_or_ge (k + 1) l.length with hlt | hge
      · rw [Nat.mod_eq_of_lt hlt] at hidx
        rw [pred_mod_pos (by omega) hil]
        omega
      · have hk1 : k + 1 = l.length := by omega
        rw [hk1, Nat.mod_self] at hidx
        rw [← hidx, pred_mod_zero (by omega)]
        omega
    rw [← hkj, hk] at hc1
    exact Option.some.inj hc1
  · intro hch
    have h0 : l[0]? = some s.current := by
      rw [hch, hp.head_eq]
      cases l with
      | nil => exact absurd rfl hl
      | cons a r => simp
    have hi0 : i = 0 := (List.getElem?_inj (by omega) hp.nodup (h0.trans hi.symm)).symm
    subst hi0
    rw [pred_mod_zero hil] at hc1
    rw [List.getLast?_eq_getElem?]
    exact hc1

/-- Witness for C10: the playlist `[A, B, C]` with the cursor on `A`. -/
theorem playPrevious_predecessor_witness :
    Reachable stateABC ∧ IsPlaylist stateABC [1, 2, 3] ∧ ([1, 2, 3] : List Ptr) ≠ [] ∧
    [1, 2, 3].length ≤ 3 ∧
    ∃ i c1, ([1, 2, 3] : List Ptr)[i]? = some stateABC.current ∧
      ([1, 2, 3] : List Ptr)[(i + [1, 2, 3].length - 1) % [1, 2, 3].length]? = some c1 ∧
      (∃ n, stateABC.heap c1 = some n ∧ n.next = stateABC.current) ∧
      (∀ p n, stateABC.heap p = some n → n.next = stateABC.current → p = c1) ∧
      playPrevious 3 stateABC =
        some ({ stateABC with current := c1 }, [Out.nowPlaying (titleAt stateABC.heap c1)]) ∧
      Reachable { stateABC with current := c1 } ∧
      (stateABC.current = stateABC.head → ([1, 2, 3] : List Ptr).getLast? = some c1) :=
  ⟨reachable_stateAfter 3 _,
   isPlaylist_of_check (reachable_stateAfter 3 _) (by decide) (by decide) (by decide),
   by decide, by decide,
   playPrevious_predecessor stateABC [1, 2, 3] 3 (reachable_stateAfter 3 _)
     (isPlaylist_of_check (reachable_stateAfter 3 _) (by decide) (by decide) (by decide))
     (by decide) (by decide)⟩

/-! ## Round trips and the single song (C11, C12, C13) -/

theorem succ_mod_pred {i N : Nat} (hi : i < N) : ((i + 1) % N + N - 1) % N = i := by
  rcases Nat.lt_or_ge (i + 1) N with hlt | hge
  · rw [Nat.mod_eq_of_lt hlt, pred_mod_pos (by omega) hlt]
    omega
  · have h1 : i + 1 = N := by omega
    rw [h1, Nat.mod_self, pred_mod_zero (by omega)]
    omega

/-- C11 (`playNext` then `playPrevious`).  On a reachable state with at least
two songs, `playNext` returns and moves only the cursor, and `playPrevious`
called next returns (given fuel for one round of the circle) and gives back
the state before the two calls: the cursor is on its original song, and
`head` and the memory, hence the song sequence, are unchanged. -/
theorem playNext_then_playPrevious (s : State) (l : List Ptr) (fuel : Nat) (hr : Reachable s)
    (hp : IsPlaylist s l) (h2 : 2 ≤ l.length) (hf : l.length ≤ fuel) :
    ∃ c1 o1 o2, playNext s = some ({ s with current := c1 }, o1) ∧
      playPrevious fuel { s with current := c1 } = some (s, o2) ∧
      Reachable { s with current := c1 } ∧ c1 ≠ s.current ∧
      o2 = [Out.nowPlaying (titleAt s.heap s.current)] := by
  have hl : l ≠ [] := by
    intro h; rw [h] at h2; simp at h2
  obtain ⟨i, hi⟩ := List.getElem?_of_mem (hp.current_in hl)
  have hil : i < l.length := (List.getElem?_eq_some_iff.1 hi).1
  obtain ⟨c1, hc1, hnext, hp1⟩ := playNext_spec hp hi
  obtain ⟨c2, hc2, hprev, -⟩ := playPrevious_spec hp1
    (show l[(i + 1) % l.length]? = some ({ s with current := c1 } : State).current from hc1) hf
  rw [succ_mod_pred hil, hi] at hc2
  cases hc2
  refine ⟨c1, _, _, hnext, hprev, Reachable.step Call.playNext 0 hr trivial hnext, ?_, rfl⟩
  intro hcc
  rw [hcc, ← hi] at hc1
  have hidx := List.getElem?_inj (Nat.mod_lt _ (by omega)) hp.nodup hc1
  rcases Nat.lt_or_ge (i + 1) l.length with hlt | hge
  · rw [Nat.mod_eq_of_lt hlt] at hidx; omega
  · have h1 : i + 1 = l.length := by omega
    rw [h1, Nat.mod_self] at hidx; omega

/-- Witness for C11: the playlist `[A, B, C]` with the cursor on `B`. -/
theorem playNext_then_playPrevious_witness :
    Reachable stateB ∧ IsPlaylist stateB [1, 2, 3] ∧ 2 ≤ [1, 2, 3].length ∧
    [1, 2, 3].length ≤ 3 ∧
    ∃ c1 o1 o2, playNext stateB = some ({ stateB with current := c1 }, o1) ∧
      playPrevious 3 { stateB with current := c1 } = some (stateB, o2) ∧
      Reachable { stateB with current := c1 } ∧ c1 ≠ stateB.current ∧
      o2 = [Out.nowPlaying (titleAt stateB.heap stateB.current)] :=
  ⟨reachable_stateAfter 3 _,
   isPlaylist_of_check (reachable_stateAfter 3 _) (by decide) (by decide) (by decide),
   by decide, by decide,
   playNext_then_playPrevious stateB [1, 2, 3] 3 (reachable_stateAfter 3 _)
     (isPlaylist_of_check (reachable_stateAfter 3 _) (by decide) (by decide) (by decide))
     (by decide) (by decide)⟩

theorem playNext_single {s : State} {x : Ptr} (hp : IsPlaylist s [x]) :
    playNext s = some (s, [Out.nowPlaying (titleAt s.heap x)]) := by
  have hc : s.current = x := by simpa using hp.current_in (by simp)
  obtain ⟨c1, hc1, hnext, -⟩ := playNext_spec hp (show [x][0]? = some s.current by simp [hc])
  simp only [List.length_singleton, Nat.mod_self, List.getElem?_cons_zero,
    Option.some.injEq] at hc1
  subst hc1
  rw [hnext, ← hc]

theorem playPrevious_single {s : State} {x : Ptr} (hp : IsPlaylist s [x]) (fuel : Nat) :
    playPrevious fuel s = some (s, [Out.nowPlaying (titleAt s.heap x)]) := by
  have hc : s.current = x := by simpa using hp.current_in (by simp)
  have hh : s.head = x := hp.head_cons
  obtain ⟨n, hn, hnx⟩ := hp.next_get 0 (show [x][0]? = some x by simp)
  simp only [List.length_singleton, Nat.mod_self, List.getElem?_cons_zero,
    Option.some.injEq] at hnx
  have hxn : x ≠ NULL := hp.ne_null (by simp)
  have hpc := playCurrent_spec hp (by simp)
  rw [hc] at hpc
  have hnx1 : n.next = x := hnx.symm
  simp only [playPrevious, hc, hxn, if_false, hh, hn, hnx1, if_true]
  exact hpc

/-- C12 (single-song playlist).  On a reachable state with exactly one song
`x`, `playNext` and `playPrevious` (with any fuel) return the state as it was
and report the title of `x`; hence any sequence of such calls leaves the state
as it was and reports that title once per call. -/
theorem single_song_moves (s : State) (x : Ptr) (fuel : Nat) (cs : List Call)
    (_hr : Reachable s) (hp : IsPlaylist s [x])
    (hcs : ∀ c ∈ cs, c = Call.playNext ∨ c = Call.playPrevious) :
    playNext s = some (s, [Out.nowPlaying (titleAt s.heap x)]) ∧
    playPrevious fuel s = some (s, [Out.nowPlaying (titleAt s.heap x)]) ∧
    s.current = x ∧ s.head = x ∧
    run fuel cs s = some (s, cs.map (fun _ => Out.nowPlaying (titleAt s.heap x))) := by
  refine ⟨playNext_single hp, playPrevious_single hp fuel,
    by simpa using hp.current_in (by simp), hp.head_cons, ?_⟩
  induction cs with
  | nil => rfl
  | cons c cs ih =>
    have hrest := ih (fun d hd => hcs d (List.mem_cons_of_mem _ hd))
    have hexec : exec fuel c s = some (s, [Out.nowPlaying (titleAt s.heap x)]) := by
      rcases hcs c (List.mem_cons_self _ _) with rfl | rfl
      · exact playNext_single hp
      · exact playPrevious_single hp fuel
    have hm : MallocOk s c := by
      rcases hcs c (List.mem_cons_self _ _) with rfl | rfl <;> trivial
    simp only [run, hm, if_true, hexec, hrest, List.map_cons, List.singleton_append]

/-- Witness for C12: the playlist `[A]` and three cursor moves. -/
theorem single_song_moves_witness :
    Reachable stateA ∧ IsPlaylist stateA [1] ∧
    (∀ c ∈ [Call.playNext, Call.playPrevious, Call.playNext],
      c = Call.playNext ∨ c = Call.playPrevious) ∧
    playNext stateA = some (stateA, [Out.nowPlaying (titleAt stateA.heap 1)]) ∧
    playPrevious 0 stateA = some (stateA, [Out.nowPlaying (titleAt stateA.heap 1)]) ∧
    stateA.current = 1 ∧ stateA.head = 1 ∧
    run 0 [Call.playNext, Call.playPrevious, Call.playNext] stateA =
      some (stateA, [Call.playNext, Call.playPrevious, Call.playNext].map
        (fun _ => Out.nowPlaying (titleAt stateA.heap 1))) :=
  ⟨reachable_stateAfter 1 _,
   isPlaylist_of_check (reachable_stateAfter 1 _) (by decide) (by decide) (by decide),
   by decide,
   single_song_moves stateA 1 0 [Call.playNext, Call.playPrevious, Call.playNext]
     (reachable_stateAfter 1 _)
     (isPlaylist_of_check (reachable_stateAfter 1 _) (by decide) (by decide) (by decide))
     (by decide)⟩

/-- C13 (removing the only song).  On a reachable state with exactly one song
`x`, whose title is the one searched for, `removeSong` returns (given fuel for
one iteration) and reports the removal; afterwards `head` and `current` are
`NULL` and no record is live, `playCurrent` reports that there is nothing to
play, and `displayPlaylist` prints no song line, only that the playlist is
empty. -/
theorem removeSong_only_song (s : State) (x : Ptr) (title : List Nat) (fuel : Nat)
    (hr : Reachable s) (hp : IsPlaylist s [x]) (hx : titleAt s.heap x = cstr title)
    (hf : 1 ≤ fuel) :
    ∃ s1, removeSong fuel title s = some (s1, [Out.removed (cstr title)]) ∧
      Reachable s1 ∧ IsPlaylist s1 [] ∧
      s1.head = NULL ∧ s1.current = NULL ∧ (∀ p, s1.heap p = none) ∧
      playCurrent s1 = some (s1, [Out.noSongs]) ∧
      ∀ fuel1, displayPlaylist fuel1 s1 = some (s1, [Out.playlistEmpty]) := by
  obtain ⟨h1, h2⟩ := removeSong_only hp hx hf
  refine ⟨_, h1, Reachable.step (Call.removeSong title) fuel hr trivial h1, h2, rfl, rfl,
    h2.heap_nil, playCurrent_nil rfl, fun fuel1 => displayPlaylist_nil rfl fuel1⟩

/-- Witness for C13: removing `A` from the playlist `[A]`. -/
theorem removeSong_only_song_witness :
    Reachable stateA ∧ IsPlaylist stateA [1] ∧ titleAt stateA.heap 1 = cstr titleA ∧ 1 ≤ 1 ∧
    ∃ s1, removeSong 1 titleA stateA = some (s1, [Out.removed (cstr titleA)]) ∧
      Reachable s1 ∧ IsPlaylist s1 [] ∧
      s1.head = NULL ∧ s1.current = NULL ∧ (∀ p, s1.heap p = none) ∧
      playCurrent s1 = some (s1, [Out.noSongs]) ∧
      ∀ fuel1, displayPlaylist fuel1 s1 = some (s1, [Out.playlistEmpty]) :=
  ⟨reachable_stateAfter 1 _,
   isPlaylist_of_check (reachable_stateAfter 1 _) (by decide) (by decide) (by decide),
   by decide, by decide,
   removeSong_only_song stateA 1 titleA 1 (reachable_stateAfter 1 _)
     (isPlaylist_of_check (reachable_stateAfter 1 _) (by decide) (by decide) (by decide))
     (by decide) (by decide)⟩

/-! ## Teardown and display (C14, C15) -/

theorem freeLoopCalls_spec {h : Heap} {head : Ptr} (rest : List Ptr) {temp : Ptr} {fuel : Nat}
    (hs : Seg h temp rest head) (hh : head ∉ rest) (hnd : rest.Nodup)
    (hnull : NULL ∉ rest) (hf : rest.length < fuel) :
    freeLoopCalls fuel h head temp = some rest := by
  induction rest generalizing temp fuel h with
  | nil =>
    obtain ⟨fuel, rfl⟩ : ∃ k, fuel = k + 1 := ⟨fuel - 1, by simp at hf; omega⟩
    simp only [seg_nil] at hs
    simp [freeLoopCalls, hs]
  | cons a r ih =>
    obtain ⟨fuel, rfl⟩ : ∃ k, fuel = k + 1 := ⟨fuel - 1, by simp at hf; omega⟩
    obtain ⟨rfl, n, hn, hq⟩ := hs
    have hth : temp ≠ head := fun he => hh (by simp [he])
    have har : temp ∉ r := (List.nodup_cons.1 hnd).1
    have htn : temp ≠ NULL := fun he => hnull (by simp [he])
    have hq1 : Seg (Function.update h temp none) n.next r head := by
      apply seg_congr _ hq
      intro b hb
      exact Function.update_noteq (fun he : b = temp => har (he ▸ hb)) _ _
    have := ih hq1 (fun hm => hh (List.mem_cons_of_mem _ hm)) (List.nodup_cons.1 hnd).2
      (fun hm => hnull (List.mem_cons_of_mem _ hm)) (show r.length < fuel by simpa using hf)
    simp [freeLoopCalls, hth, hn, free_of_lookup hn htn, this]

theorem freePlaylistCalls_spec {s : State} {l : List Ptr} (hp : IsPlaylist s l) {fuel : Nat}
    (hf : l.length ≤ fuel) : freePlaylistCalls fuel s = some (l.tail ++ l.take 1) := by
  cases l with
  | nil => simp [freePlaylistCalls, hp.head_nil]
  | cons x r =>
    have hh := hp.head_cons
    have hc := hp.cycle
    rw [hh] at hc
    obtain ⟨-, nx, hnx, hq⟩ := hc
    have hnd := List.nodup_cons.1 hp.nodup
    have hxn : x ≠ NULL := hp.ne_null (by simp)
    have := freeLoopCalls_spec r hq hnd.1 hnd.2
      (fun hm => hp.ne_null (List.mem_cons_of_mem _ hm) rfl)
      (show r.length < fuel by simpa [Nat.lt_iff_add_one_le] using hf)
    simp [freePlaylistCalls, hh, hxn, hnx, this]

/-- C14 (teardown).  On a reachable state with head-order sequence `l`,
`freePlaylist` returns (given fuel for one round of the circle) and prints
nothing; its calls of `free` are the songs of `l` after `head`, in order, and
then `head`, so every song is freed exactly once; afterwards `head` and
`current` are `NULL` and no record is live, and `displayPlaylist` prints no
song line.  On the empty playlist it returns the state as it was. -/
theorem freePlaylist_teardown (s : State) (l : List Ptr) (fuel : Nat) (hr : Reachable s)
    (hp : IsPlaylist s l) (hf : l.length ≤ fuel) :
    ∃ s1, freePlaylist fuel s = some (s1, []) ∧
      Reachable s1 ∧ IsPlaylist s1 [] ∧
      s1.head = NULL ∧ s1.current = NULL ∧ (∀ p, s1.heap p = none) ∧
      (∃ calls, freePlaylistCalls fuel s = some calls ∧ calls = l.tail ++ l.take 1 ∧
        calls.Perm l ∧ calls.Nodup ∧ calls.length = l.length) ∧
      (∀ fuel1, displayPlaylist fuel1 s1 = some (s1, [Out.playlistEmpty])) ∧
      (l = [] → s1 = s) := by
  have hcalls : (l.tail ++ l.take 1).Perm l := by
    cases l with
    | nil => simp
    | cons a r => exact (List.perm_append_comm : (r ++ [a]).Perm ([a] ++ r))
  have hex : ∃ s1, freePlaylist fuel s = some (s1, []) ∧ IsPlaylist s1 [] ∧ (l = [] → s1 = s) := by
    by_cases hl : l = []
    · subst hl
      exact ⟨s, freePlaylist_nil hp.head_nil fuel, hp, fun _ => rfl⟩
    · exact ⟨_, freePlaylist_spec hp hl hf, isPlaylist_init, fun h => absurd h hl⟩
  obtain ⟨s1, h1, h2, h3⟩ := hex
  refine ⟨s1, h1, Reachable.step Call.freePlaylist fuel hr trivial h1, h2, h2.head_nil,
    h2.current_nil, h2.heap_nil, ?_, fun fuel1 => displayPlaylist_nil h2.head_nil fuel1, h3⟩
  exact ⟨_, freePlaylistCalls_spec hp hf, rfl, hcalls, hcalls.nodup_iff.2 hp.nodup,
    hcalls.length_eq⟩

/-- Witness for C14: tearing down the playlist `[A, B, C]`. -/
theorem freePlaylist_teardown_witness :
    Reachable stateABC ∧ IsPlaylist stateABC [1, 2, 3] ∧ [1, 2, 3].length ≤ 3 ∧
    ∃ s1, freePlaylist 3 stateABC = some (s1, []) ∧
      Reachable s1 ∧ IsPlaylist s1 [] ∧
      s1.head = NULL ∧ s1.current = NULL ∧ (∀ p, s1.heap p = none) ∧
      (∃ calls, freePlaylistCalls 3 stateABC = some calls ∧
        calls = ([1, 2, 3] : List Ptr).tail ++ ([1, 2, 3] : List Ptr).take 1 ∧
        calls.Perm [1, 2, 3] ∧ calls.Nodup ∧ calls.length = [1, 2, 3].length) ∧
      (∀ fuel1, displayPlaylist fuel1 s1 = some (s1, [Out.playlistEmpty])) ∧
      (([1, 2, 3] : List Ptr) = [] → s1 = stateABC) :=
  ⟨reachable_stateAfter 3 _,
   isPlaylist_of_check (reachable_stateAfter 3 _) (by decide) (by decide) (by decide),
   by decide,
   freePlaylist_teardown stateABC [1, 2, 3] 3 (reachable_stateAfter 3 _)
     (isPlaylist_of_check (reachable_stateAfter 3 _) (by decide) (by decide) (by decide))
     (by decide)⟩

/-- C15 (`displayPlaylist` on a non-empty playlist).  On a reachable state
with a non-empty head-order sequence `l` of length `N`, `displayPlaylist`
returns (given fuel for one round of the circle), leaves the state as it was
and prints, between header and footer, exactly `N` lines: line `j` is the line
of the song reached from `head` by `j` `next` links, and these songs are all
different.  Exactly one line is marked as current: the line of the song the
cursor is on, whatever the titles of the other songs. -/
theorem displayPlaylist_lines (s : State) (l : List Ptr) (fuel : Nat) (_hr : Reachable s)
    (hp : IsPlaylist s l) (hl : l ≠ []) (hf : l.length ≤ fuel) :
    displayPlaylist fuel s = some (s, [Out.header] ++ l.map (displayLine s) ++ [Out.footer]) ∧
    (l.map (displayLine s)).length = l.length ∧ l.Nodup ∧
    (∀ j p, l[j]? = some p → iterNext s.heap j s.head = some p) ∧
    ∃ i, l[i]? = some s.current ∧
      ∀ (j : Nat) (p : Ptr), l[j]? = some p →
        (j = i → displayLine s p = Out.currentLine (titleAt s.heap p)) ∧
        (j ≠ i → displayLine s p = Out.plainLine (titleAt s.heap p)) := by
  refine ⟨displayPlaylist_spec hp hl hf, by simp, hp.nodup, ?_, ?_⟩
  · intro j p hj
    have hjl : j < l.length := (List.getElem?_eq_some_iff.1 hj).1
    have h0 : l[0]? = some s.head := by
      rw [hp.head_eq]
      cases l with
      | nil => exact absurd rfl hl
      | cons a r => simp
    obtain ⟨b, hb, hb1⟩ := hp.iterNext_get j 0 h0
    rw [Nat.zero_add, Nat.mod_eq_of_lt hjl, hj] at hb1
    rw [hb, ← hb1]
  · obtain ⟨i, hi⟩ := List.getElem?_of_mem (hp.current_in hl)
    have hil : i < l.length := (List.getElem?_eq_some_iff.1 hi).1
    refine ⟨i, hi, ?_⟩
    intro j p hj
    constructor
    · rintro rfl
      have : p = s.current := Option.some.inj (hj.symm.trans hi)
      simp [displayLine, this]
    · intro hne
      have : p ≠ s.current := by
        rintro rfl
        exact hne (List.getElem?_inj hil hp.nodup (hi.trans hj.symm)).symm
      simp [displayLine, this]

/-- Witness for C15: the playlist `[A, A, B]` with the cursor on the second
`A`. -/
theorem displayPlaylist_lines_witness :
    Reachable stateAAB ∧ IsPlaylist stateAAB [1, 2, 3] ∧ ([1, 2, 3] : List Ptr) ≠ [] ∧
    [1, 2, 3].length ≤ 3 ∧
    displayPlaylist 3 stateAAB =
      some (stateAAB, [Out.header] ++ [1, 2, 3].map (displayLine stateAAB) ++ [Out.footer]) ∧
    (([1, 2, 3] : List Ptr).map (displayLine stateAAB)).length = [1, 2, 3].length ∧
    ([1, 2, 3] : List Ptr).Nodup ∧
    (∀ j p, ([1, 2, 3] : List Ptr)[j]? = some p →
      iterNext stateAAB.heap j stateAAB.head = some p) ∧
    ∃ i, ([1, 2, 3] : List Ptr)[i]? = some stateAAB.current ∧
      ∀ (j : Nat) (p : Ptr), ([1, 2, 3] : List Ptr)[j]? = some p →
        (j = i → displayLine stateAAB p = Out.currentLine (titleAt stateAAB.heap p)) ∧
        (j ≠ i → displayLine stateAAB p = Out.plainLine (titleAt stateAAB.heap p)) :=
  ⟨reachable_stateAfter 3 _,
   isPlaylist_of_check (reachable_stateAfter 3 _) (by decide) (by decide) (by decide),
   by decide, by decide,
   displayPlaylist_lines stateAAB [1, 2, 3] 3 (reachable_stateAfter 3 _)
     (isPlaylist_of_check (reachable_stateAfter 3 _) (by decide) (by decide) (by decide))
     (by decide) (by decide)⟩

/-! ## Titles and the add handler (C16, C17) -/

theorem takeWhile_append_stop {p : Nat → Bool} (l : List Nat) {a : Nat} (r : List Nat)
    (hl : ∀ b ∈ l, p b = true) (ha : p a = false) : (l ++ a :: r).takeWhile p = l := by
  induction l with
  | nil => simp [List.takeWhile, ha]
  | cons b l ih =>
    have hb := hl b (List.mem_cons_self _ _)
    simp only [List.cons_append, List.takeWhile_cons, hb, if_true]
    rw [ih (fun c hc => hl c (List.mem_cons_of_mem _ hc))]

theorem takeWhile_all {p : Nat → Bool} (l : List Nat) (hl : ∀ b ∈ l, p b = true) :
    l.takeWhile p = l := by
  induction l with
  | nil => rfl
  | cons b l ih =>
    simp only [List.takeWhile_cons, hl b (List.mem_cons_self _ _), if_true]
    rw [ih (fun c hc => hl c (List.mem_cons_of_mem _ hc))]

theorem set_append_length (l : List Nat) (a b : Nat) (r : List Nat) :
    (l ++ a :: r).set l.length b = l ++ b :: r := by
  induction l with
  | nil => rfl
  | cons c l ih => simp only [List.cons_append, List.length_cons, List.set_cons_succ, ih]

/-- A byte string without NUL is its own C string. -/
theorem cstr_of_no_nul {t : List Nat} (h : 0 ∉ t) : cstr t = t := by
  unfold cstr
  apply takeWhile_all
  intro b hb
  have : b ≠ 0 := fun h0 => h (h0 ▸ hb)
  simp [this]

/-- The C string in a NUL-free byte string followed by a NUL. -/
theorem cstr_append_nul {t : List Nat} (h : 0 ∉ t) (r : List Nat) : cstr (t ++ 0 :: r) = t := by
  unfold cstr
  apply takeWhile_append_stop
  · intro b hb
    have : b ≠ 0 := fun h0 => h (h0 ▸ hb)
    simp [this]
  · simp

/-- `addSong` reads its argument as a C string. -/
theorem addSong_congr {t t1 : List Nat} (h : cstr t = cstr t1) (fuel : Nat) (node : Ptr)
    (s : State) : addSong fuel node t s = addSong fuel node t1 s := by
  simp only [addSong, create_song, strncpy, h]

/-- C16 (title truncation).  On a reachable state, for every title without
NUL byte, `addSong` (with `malloc` returning a fresh address and fuel for one
round of the circle) returns and adds the song whatever the length of the
title; the title kept is the first `TITLE_LEN - 1 = 99` bytes of the input, of
length `min len 99`: the input itself when it has at most 99 bytes. -/
theorem addSong_truncates (s : State) (l : List Ptr) (node : Ptr) (title : List Nat)
    (fuel : Nat) (_hr : Reachable s) (hp : IsPlaylist s l) (hn : node ≠ NULL)
    (hfresh : s.heap node = none) (hnul : 0 ∉ title) (hf : l.length ≤ fuel) :
    ∃ s1, addSong fuel node title s = some (s1, [Out.added (title.take (TITLE_LEN - 1))]) ∧
      IsPlaylist s1 (l ++ [node]) ∧
      titleAt s1.heap node = title.take (TITLE_LEN - 1) ∧
      (titleAt s1.heap node).length = min title.length 99 ∧
      (title.length ≤ 99 → titleAt s1.heap node = title) ∧
      (99 < title.length → titleAt s1.heap node = title.take 99 ∧
        (titleAt s1.heap node).length = 99) := by
  obtain ⟨s1, h1, h2, h3, -⟩ := addSong_spec hp hn hfresh title hf
  rw [cstr_of_no_nul hnul] at h1
  have ht : titleAt s1.heap node = title.take (TITLE_LEN - 1) := by
    simp [titleAt, h3, cstr_stored, cstr_of_no_nul hnul]
  have h99 : TITLE_LEN - 1 = 99 := rfl
  refine ⟨s1, h1, h2, ht, ?_, ?_, ?_⟩
  · rw [ht, h99, List.length_take, Nat.min_comm]
  · intro hle
    rw [ht, h99, List.take_of_length_le hle]
  · intro hlt
    rw [ht, h99, List.length_take]
    exact ⟨rfl, Nat.min_eq_left (by omega)⟩

/-- Witness for C16: adding a title of 120 bytes to the playlist `[A, B, C]`. -/
theorem addSong_truncates_witness :
    Reachable stateABC ∧ IsPlaylist stateABC [1, 2, 3] ∧ (4 : Ptr) ≠ NULL ∧
    stateABC.heap 4 = none ∧ 0 ∉ List.replicate 120 65 ∧ [1, 2, 3].length ≤ 3 ∧
    ∃ s1, addSong 3 4 (List.replicate 120 65) stateABC =
        some (s1, [Out.added ((List.replicate 120 65).take (TITLE_LEN - 1))]) ∧
      IsPlaylist s1 ([1, 2, 3] ++ [4]) ∧
      titleAt s1.heap 4 = (List.replicate 120 65).take (TITLE_LEN - 1) ∧
      (titleAt s1.heap 4).length = min (List.replicate 120 65).length 99 ∧
      ((List.replicate 120 65).length ≤ 99 → titleAt s1.heap 4 = List.replicate 120 65) ∧
      (99 < (List.replicate 120 65).length →
        titleAt s1.heap 4 = (List.replicate 120 65).take 99 ∧
        (titleAt s1.heap 4).length = 99) :=
  ⟨reachable_stateAfter 3 _,
   isPlaylist_of_check (reachable_stateAfter 3 _) (by decide) (by decide) (by decide),
   by decide, by decide, by decide, by decide,
   addSong_truncates stateABC [1, 2, 3] 4 (List.replicate 120 65) 3 (reachable_stateAfter 3 _)
     (isPlaylist_of_check (reachable_stateAfter 3 _) (by decide) (by decide) (by decide))
     (by decide) (by decide) (by decide) (by decide)⟩

theorem readLine_line (line rest : List Nat) (k : Nat) (h10 : 10 ∉ line)
    (hk : line.length < k) : readLine k (line ++ 10 :: rest) = (line ++ [10], rest) := by
  induction line generalizing k with
  | nil =>
    obtain ⟨k, rfl⟩ : ∃ j, k = j + 1 := ⟨k - 1, by simp at hk; omega⟩
    simp [readLine]
  | cons b line ih =>
    obtain ⟨k, rfl⟩ : ∃ j, k = j + 1 := ⟨k - 1, by simp at hk; omega⟩
    have hb : b ≠ 10 := fun h => h10 (by simp [h])
    have := ih k (fun h => h10 (List.mem_cons_of_mem _ h)) (by simpa using hk)
    simp [readLine, hb, this]

/-- Counterexample for C17: the title made of a space and a tab is blank, and
yet the handler of menu choice 1, run at program start on that line, adds it:
afterwards `head` and `current` are the new song, which holds that title. -/
theorem blank_title_is_added :
    Blank [32, 9] ∧ init.head = NULL ∧ init.current = NULL ∧
    (addCase 1 1 ([32, 9] ++ [10]) init).map
        (fun r => (r.1.head, r.1.current, titleAt r.1.heap 1, r.2.1)) =
      some (1, 1, [32, 9], [MenuOut.enterTitle, MenuOut.core (Out.added [32, 9])]) := by
  refine ⟨?_, rfl, rfl, by decide⟩
  unfold Blank
  decide

theorem readLine_long (line rest : List Nat) (k : Nat) (h10 : 10 ∉ line)
    (hk : k ≤ line.length) :
    readLine k (line ++ 10 :: rest) = (line.take k, line.drop k ++ 10 :: rest) := by
  induction k generalizing line with
  | zero => simp [readLine]
  | succ k ih =>
    cases line with
    | nil => simp at hk
    | cons b line =>
      have hb : b ≠ 10 := fun h => h10 (by simp [h])
      have := ih line (fun h => h10 (List.mem_cons_of_mem _ h)) (by simpa using hk)
      simp [readLine, hb, this]

/-- The handler of menu choice 1 on a non-empty line without NUL byte: the
first `TITLE_LEN - 1` bytes of the line go to `addSong`; what `fgets` did not
take stays in the input. -/
theorem addCase_line (s : State) (fuel : Nat) (node : Ptr) (line rest : List Nat)
    (hne : line ≠ []) (h0 : 0 ∉ line) (h10 : 10 ∉ line) :
    addCase fuel node (line ++ 10 :: rest) s =
      (addSong fuel node (line.take (TITLE_LEN - 1)) s).map
        (fun r => (r.1, MenuOut.enterTitle :: r.2.map MenuOut.core,
          if line.length < TITLE_LEN - 1 then rest
          else line.drop (TITLE_LEN - 1) ++ 10 :: rest)) := by
  have hadd : ∀ t : List Nat, 0 ∉ t →
      addSong fuel node (t ++ 0 :: [0]) s = addSong fuel node t s := fun t ht =>
    addSong_congr (by rw [cstr_append_nul ht [0], cstr_of_no_nul ht]) fuel node s
  by_cases hlen : line.length < TITLE_LEN - 1
  · have hfg : fgets TITLE_LEN (line ++ 10 :: rest) = some (line ++ 10 :: [0], rest) := by
      simp [fgets, readLine_line line rest (TITLE_LEN - 1) h10 hlen]
    have h0n : 0 ∉ line ++ [10] := by simp [h0]
    have hc : cstr (line ++ 10 :: [0]) = line ++ [10] := by
      have := cstr_append_nul h0n []
      simpa using this
    have hsp : strcspnNewline (line ++ 10 :: [0]) = line.length := by
      unfold strcspnNewline
      rw [hc, takeWhile_append_stop line [] (fun b hb => by
        have : b ≠ 10 := fun h => h10 (h ▸ hb)
        simp [this]) (by simp)]
    have hset : (line ++ 10 :: [0]).set line.length 0 = line ++ 0 :: [0] :=
      set_append_length line 10 0 [0]
    have hlen0 : strlen (line ++ 0 :: [0]) ≠ 0 := by
      unfold strlen
      rw [cstr_append_nul h0 [0]]
      exact fun h => hne (List.length_eq_zero.1 h)
    have htake : line.take (TITLE_LEN - 1) = line := List.take_of_length_le (Nat.le_of_lt hlen)
    simp only [addCase, hfg, hsp, hset, hlen0, if_false, hadd line h0, htake, hlen, if_true]
    cases addSong fuel node line s with
    | none => rfl
    | some r => rfl
  · have hge : TITLE_LEN - 1 ≤ line.length := Nat.le_of_not_lt hlen
    have hfg : fgets TITLE_LEN (line ++ 10 :: rest) =
        some (line.take (TITLE_LEN - 1) ++ [0], line.drop (TITLE_LEN - 1) ++ 10 :: rest) := by
      simp [fgets, readLine_long line rest (TITLE_LEN - 1) h10 hge]
    have h0t : 0 ∉ line.take (TITLE_LEN - 1) := fun h => h0 (List.mem_of_mem_take h)
    have h10t : 10 ∉ line.take (TITLE_LEN - 1) := fun h => h10 (List.mem_of_mem_take h)
    have hc : cstr (line.take (TITLE_LEN - 1) ++ [0]) = line.take (TITLE_LEN - 1) :=
      cstr_append_nul h0t []
    have hsp : strcspnNewline (line.take (TITLE_LEN - 1) ++ [0]) =
        (line.take (TITLE_LEN - 1)).length := by
      unfold strcspnNewline
      rw [hc, takeWhile_all _ (fun b hb => by
        have : b ≠ 10 := fun h => h10t (h ▸ hb)
        simp [this])]
    have hset : (line.take (TITLE_LEN - 1) ++ [0]).set (line.take (TITLE_LEN - 1)).length 0 =
        line.take (TITLE_LEN - 1) ++ [0] :=
      set_append_length (line.take (TITLE_LEN - 1)) 0 0 []
    have hlen0 : strlen (line.take (TITLE_LEN - 1) ++ [0]) ≠ 0 := by
      unfold strlen
      rw [hc, List.length_take, Nat.min_eq_left hge]
      decide
    have hadd1 : addSong fuel node (line.take (TITLE_LEN - 1) ++ [0]) s =
        addSong fuel node (line.take (TITLE_LEN - 1)) s :=
      addSong_congr (by rw [hc, cstr_of_no_nul h0t]) fuel node s
    simp only [addCase, hfg, hsp, hset, hlen0, if_false, hadd1, hlen]
    cases addSong fuel node (line.take (TITLE_LEN - 1)) s with
    | none => rfl
    | some r => rfl

theorem blank_no_nul_no_newline {title : List Nat} (hb : Blank title) :
    0 ∉ title ∧ 10 ∉ title := by
  constructor <;> intro h <;> rcases hb _ h with h1 | h1 <;> simp at h1

/-- C17, amended (the empty title is declined, the other blank titles are
added).  The handler of menu choice 1 declines the empty title, that is a line
with nothing before its newline: it prints that the title is empty and returns
the state as it was.  A non-empty title made only of spaces and tabs is not
declined: on a reachable state with head-order sequence `l`, with `malloc`
returning a fresh address `node` and fuel for one round of the circle, the
handler returns, and afterwards the head-order sequence is `l` followed by
`node`, which holds the first `TITLE_LEN - 1 = 99` bytes of the title, the
whole title when it has at most 99 bytes; what `fgets` did not take of a
longer title stays in the input. -/
theorem addCase_empty_declined_blank_added (s : State) (l : List Ptr) (fuel : Nat)
    (node : Ptr) (title rest : List Nat) (hr : Reachable s) (hp : IsPlaylist s l)
    (hn : node ≠ NULL) (hfresh : s.heap node = none) (hblank : Blank title)
    (hne : title ≠ []) (hf : l.length ≤ fuel) :
    addCase fuel node (10 :: rest) s =
      some (s, [MenuOut.enterTitle, MenuOut.emptyTitle], rest) ∧
    ∃ s1 left, addCase fuel node (title ++ 10 :: rest) s =
        some (s1, [MenuOut.enterTitle, MenuOut.core (Out.added (title.take (TITLE_LEN - 1)))],
          left) ∧
      Reachable s1 ∧ IsPlaylist s1 (l ++ [node]) ∧ s1.heap node ≠ none ∧
      titleAt s1.heap node = title.take (TITLE_LEN - 1) ∧
      (title.length ≤ TITLE_LEN - 1 → titleAt s1.heap node = title) ∧
      (title.length < TITLE_LEN - 1 → left = rest) ∧
      (TITLE_LEN - 1 ≤ title.length → left = title.drop (TITLE_LEN - 1) ++ 10 :: rest) := by
  obtain ⟨h0, h10⟩ := blank_no_nul_no_newline hblank
  constructor
  · simp [addCase, fgets, readLine, TITLE_LEN, strcspnNewline, cstr, strlen]
  · have h0t : 0 ∉ title.take (TITLE_LEN - 1) := fun h => h0 (List.mem_of_mem_take h)
    obtain ⟨s1, h1, h2, h3, -⟩ := addSong_spec hp hn hfresh (title.take (TITLE_LEN - 1)) hf
    rw [cstr_of_no_nul h0t, List.take_take, Nat.min_self] at h1
    have hcase := addCase_line s fuel node title rest hne h0 h10
    rw [h1] at hcase
    have ht : titleAt s1.heap node = title.take (TITLE_LEN - 1) := by
      simp [titleAt, h3, cstr_stored, cstr_of_no_nul h0t, List.take_take]
    refine ⟨s1, _, hcase,
      Reachable.step (Call.addSong node (title.take (TITLE_LEN - 1))) fuel hr
        (fun _ => hfresh) h1,
      h2, by rw [h3]; simp, ht, ?_, ?_, ?_⟩
    · intro hle
      rw [ht, List.take_of_length_le hle]
    · intro hlt
      simp [hlt]
    · intro hge
      simp [Nat.not_lt.2 hge]

/-- Witness for C17, amended: the title made of a space and a tab, typed at
the playlist `[A, B, C]`. -/
theorem addCase_empty_declined_blank_added_witness :
    Reachable stateABC ∧ IsPlaylist stateABC [1, 2, 3] ∧ (4 : Ptr) ≠ NULL ∧
    stateABC.heap 4 = none ∧ Blank [32, 9] ∧ ([32, 9] : List Nat) ≠ [] ∧
    [1, 2, 3].length ≤ 3 ∧
    addCase 3 4 (10 :: [65]) stateABC =
      some (stateABC, [MenuOut.enterTitle, MenuOut.emptyTitle], [65]) ∧
    ∃ s1 left, addCase 3 4 ([32, 9] ++ 10 :: [65]) stateABC =
        some (s1,
          [MenuOut.enterTitle, MenuOut.core (Out.added (([32, 9] : List Nat).take (TITLE_LEN - 1)))],
          left) ∧
      Reachable s1 ∧ IsPlaylist s1 ([1, 2, 3] ++ [4]) ∧ s1.heap 4 ≠ none ∧
      titleAt s1.heap 4 = ([32, 9] : List Nat).take (TITLE_LEN - 1) ∧
      (([32, 9] : List Nat).length ≤ TITLE_LEN - 1 → titleAt s1.heap 4 = [32, 9]) ∧
      (([32, 9] : List Nat).length < TITLE_LEN - 1 → left = [65]) ∧
      (TITLE_LEN - 1 ≤ ([32, 9] : List Nat).length →
        left = ([32, 9] : List Nat).drop (TITLE_LEN - 1) ++ 10 :: [65]) :=
  ⟨reachable_stateAfter 3 _,
   isPlaylist_of_check (reachable_stateAfter 3 _) (by decide) (by decide) (by decide),
   by decide, by decide, by unfold Blank; decide, by decide, by decide,
   addCase_empty_declined_blank_added stateABC [1, 2, 3] 3 4 [32, 9] [65]
     (reachable_stateAfter 3 _)
     (isPlaylist_of_check (reachable_stateAfter 3 _) (by decide) (by decide) (by decide))
     (by decide) (by decide) (by unfold Blank; decide) (by decide) (by decide)⟩

/-! ## Frame of the read and navigation operations (C18) -/

theorem playCurrent_state {s s1 : State} {o : List Out} (h : playCurrent s = some (s1, o)) :
    s1 = s := by
  unfold playCurrent at h
  split at h
  · simp only [Option.some.injEq, Prod.mk.injEq] at h; exact h.1.symm
  · split at h
    · simp at h
    · simp only [Option.some.injEq, Prod.mk.injEq] at h; exact h.1.symm

theorem displayPlaylist_state {fuel : Nat} {s s1 : State} {o : List Out}
    (h : displayPlaylist fuel s = some (s1, o)) : s1 = s := by
  unfold displayPlaylist at h
  split at h
  · simp only [Option.some.injEq, Prod.mk.injEq] at h; exact h.1.symm
  · split at h
    · simp at h
    · simp only [Option.some.injEq, Prod.mk.injEq] at h; exact h.1.symm

theorem playNext_frame {s s1 : State} {o : List Out} (h : playNext s = some (s1, o)) :
    s1.heap = s.heap ∧ s1.head = s.head := by
  unfold playNext at h
  split at h
  · simp only [Option.some.injEq, Prod.mk.injEq] at h
    rw [← h.1]; exact ⟨rfl, rfl⟩
  · split at h
    · simp at h
    · rw [playCurrent_state h]; exact ⟨rfl, rfl⟩

theorem playPrevious_frame {fuel : Nat} {s s1 : State} {o : List Out}
    (h : playPrevious fuel s = some (s1, o)) : s1.heap = s.heap ∧ s1.head = s.head := by
  unfold playPrevious at h
  split at h
  · simp only [Option.some.injEq, Prod.mk.injEq] at h
    rw [← h.1]; exact ⟨rfl, rfl⟩
  · split at h
    · simp at h
    · split at h
      · rw [playCurrent_state h]; exact ⟨rfl, rfl⟩
      · split at h
        · simp at h
        · rw [playCurrent_state h]; exact ⟨rfl, rfl⟩

/-- C18 (frame of the read and navigation operations).  On a reachable state
with head-order sequence `l`, `playCurrent` and `displayPlaylist` return the
state as it was; `playNext` and `playPrevious` return a state that differs at
most in `current`: memory (hence every title and `next` link), `head` and the
head-order sequence `l`, hence the number of songs, are the same.  Whenever
one of them returns, with whatever fuel, this holds of the state returned. -/
theorem navigation_frame (s : State) (l : List Ptr) (fuel : Nat) (_hr : Reachable s)
    (hp : IsPlaylist s l) (hf : l.length ≤ fuel) :
    (∃ o, playCurrent s = some (s, o)) ∧
    (∃ o, displayPlaylist fuel s = some (s, o)) ∧
    (∃ c o, playNext s = some ({ s with current := c }, o) ∧
      IsPlaylist { s with current := c } l) ∧
    (∃ c o, playPrevious fuel s = some ({ s with current := c }, o) ∧
      IsPlaylist { s with current := c } l) ∧
    (∀ fuel1 s1 o, displayPlaylist fuel1 s = some (s1, o) → s1 = s) ∧
    (∀ s1 o, playNext s = some (s1, o) → s1.heap = s.heap ∧ s1.head = s.head) ∧
    (∀ fuel1 s1 o, playPrevious fuel1 s = some (s1, o) →
      s1.heap = s.heap ∧ s1.head = s.head) := by
  refine ⟨?_, ?_, ?_, ?_, fun _ _ _ h => displayPlaylist_state h,
    fun _ _ h => playNext_frame h, fun _ _ _ h => playPrevious_frame h⟩
  · by_cases hl : l = []
    · subst hl; exact ⟨_, playCurrent_nil hp.current_nil⟩
    · exact ⟨_, playCurrent_spec hp hl⟩
  · by_cases hl : l = []
    · subst hl; exact ⟨_, displayPlaylist_nil hp.head_nil fuel⟩
    · exact ⟨_, displayPlaylist_spec hp hl hf⟩
  · by_cases hl : l = []
    · subst hl
      have h : playNext s = some (s, [Out.noSongs]) := by simp [playNext, hp.current_nil]
      exact ⟨s.current, [Out.noSongs], h, hp⟩
    · obtain ⟨i, hi⟩ := List.getElem?_of_mem (hp.current_in hl)
      obtain ⟨c1, -, h1, h2⟩ := playNext_spec hp hi
      exact ⟨c1, _, h1, h2⟩
  · by_cases hl : l = []
    · subst hl
      have h : playPrevious fuel s = some (s, [Out.noSongs]) := by
        simp [playPrevious, hp.current_nil]
      exact ⟨s.current, [Out.noSongs], h, hp⟩
    · obtain ⟨i, hi⟩ := List.getElem?_of_mem (hp.current_in hl)
      obtain ⟨c1, -, h1, h2⟩ := playPrevious_spec hp hi hf
      exact ⟨c1, _, h1, h2⟩

/-- Witness for C18: the playlist `[A, B, C]` with the cursor on `B`. -/
theorem navigation_frame_witness :
    Reachable stateB ∧ IsPlaylist stateB [1, 2, 3] ∧ [1, 2, 3].length ≤ 3 ∧
    (∃ o, playCurrent stateB = some (stateB, o)) ∧
    (∃ o, displayPlaylist 3 stateB = some (stateB, o)) ∧
    (∃ c o, playNext stateB = some ({ stateB with current := c }, o) ∧
      IsPlaylist { stateB with current := c } [1, 2, 3]) ∧
    (∃ c o, playPrevious 3 stateB = some ({ stateB with current := c }, o) ∧
      IsPlaylist { stateB with current := c } [1, 2, 3]) ∧
    (∀ fuel1 s1 o, displayPlaylist fuel1 stateB = some (s1, o) → s1 = stateB) ∧
    (∀ s1 o, playNext stateB = some (s1, o) →
      s1.heap = stateB.heap ∧ s1.head = stateB.head) ∧
    (∀ fuel1 s1 o, playPrevious fuel1 stateB = some (s1, o) →
      s1.heap = stateB.heap ∧ s1.head = stateB.head) :=
  ⟨reachable_stateAfter 3 _,
   isPlaylist_of_check (reachable_stateAfter 3 _) (by decide) (by decide) (by decide),
   by decide,
   navigation_frame stateB [1, 2, 3] 3 (reachable_stateAfter 3 _)
     (isPlaylist_of_check (reachable_stateAfter 3 _) (by decide) (by decide) (by decide))
     (by decide)⟩

/-! ## Search titles and the cursor on removal (C19, C20) -/

theorem title_of_map_eq {h h1 : Heap} {p : Ptr} {n1 : Song}
    (hm : (h1 p).map Song.title = (h p).map Song.title) (h1p : h1 p = some n1) :
    ∃ n, h p = some n ∧ n.title = n1.title := by
  rw [h1p] at hm
  cases hn : h p with
  | none => simp [hn] at hm
  | some n => exact ⟨n, rfl, by simpa [hn] using hm.symm⟩

/-- Every title array in the memory after a call was there before the call or
was written by `create_song`. -/
theorem exec_titles {s : State} {l : List Ptr} (hp : IsPlaylist s l) {c : Call}
    (hm : MallocOk s c) {fuel : Nat} {s1 : State} {out : List Out}
    (he : exec fuel c s = some (s1, out)) (p : Ptr) (n1 : Song) (h1p : s1.heap p = some n1) :
    (∃ n, s.heap p = some n ∧ n.title = n1.title) ∨
      ∃ t, n1.title = strncpy t (TITLE_LEN - 1) ++ [0] := by
  have he1 := exec_mono (le_max_left fuel l.length) he
  have hF : l.length ≤ max fuel l.length := le_max_right _ _
  cases c with
  | addSong node title =>
    by_cases hn : node = NULL
    · subst hn
      have := addSong_null (max fuel l.length) title s
      simp only [exec] at he1
      rw [this] at he1
      cases he1
      exact Or.inl ⟨n1, h1p, rfl⟩
    · obtain ⟨s2, h1, -, h3, h4, -⟩ := addSong_spec hp hn (hm hn) title hF
      simp only [exec] at he1
      rw [h1] at he1
      cases he1
      by_cases hpn : p = node
      · subst hpn
        rw [h3] at h1p
        cases h1p
        exact Or.inr ⟨title, rfl⟩
      · exact Or.inl (title_of_map_eq (h4 p hpn) h1p)
  | removeSong title =>
    simp only [exec] at he1
    by_cases hl : l = []
    · subst hl
      rw [removeSong_empty _ title hp.head_nil] at he1
      cases he1
      exact Or.inl ⟨n1, h1p, rfl⟩
    · by_cases hex : ∃ q ∈ l, titleAt s.heap q = cstr title
      · obtain ⟨pre, x, post, rfl, hpre, hx⟩ := exists_first_match _ l hex
        obtain ⟨s2, h1, -, h3, h4, -⟩ := removeSong_found hp hpre hx hF
        rw [h1] at he1
        cases he1
        by_cases hpx : p = x
        · subst hpx
          rw [h3] at h1p
          cases h1p
        · exact Or.inl (title_of_map_eq (h4 p hpx) h1p)
      · have hne : ∀ q ∈ l, titleAt s.heap q ≠ cstr title := fun q hq h => hex ⟨q, hq, h⟩
        rw [removeSong_notFound hp hl hne hF] at he1
        cases he1
        exact Or.inl ⟨n1, h1p, rfl⟩
  | displayPlaylist =>
    have := displayPlaylist_state he
    subst this
    exact Or.inl ⟨n1, h1p, rfl⟩
  | playCurrent =>
    have := playCurrent_state he
    subst this
    exact Or.inl ⟨n1, h1p, rfl⟩
  | playNext =>
    have := (playNext_frame he).1
    exact Or.inl ⟨n1, this ▸ h1p, rfl⟩
  | playPrevious =>
    have := (playPrevious_frame he).1
    exact Or.inl ⟨n1, this ▸ h1p, rfl⟩
  | freePlaylist =>
    simp only [exec] at he1
    by_cases hl : l = []
    · subst hl
      rw [freePlaylist_nil hp.head_nil] at he1
      cases he1
      exact Or.inl ⟨n1, h1p, rfl⟩
    · rw [freePlaylist_spec hp hl hF] at he1
      cases he1
      cases h1p

/-- In every reachable state, the C string in each title array has at most
`TITLE_LEN - 1` bytes. -/
theorem reachable_titles_bounded {s : State} (hr : Reachable s) (p : Ptr) (n : Song)
    (hn : s.heap p = some n) : (cstr n.title).length ≤ TITLE_LEN - 1 := by
  induction hr generalizing p n with
  | init => cases hn
  | step c fuel hr0 hm he ih =>
    obtain ⟨l, hp⟩ := reachable_isPlaylist hr0
    rcases exec_titles hp hm he p n hn with ⟨n0, hn0, ht⟩ | ⟨t, ht⟩
    · rw [← ht]; exact ih p n0 hn0
    · rw [ht, cstr_stored, List.length_take]
      exact Nat.min_le_left _ _

theorem removeSong_mono {n m : Nat} {title : List Nat} {s : State} {r : State × List Out}
    (hle : n ≤ m) (h : removeSong n title s = some r) : removeSong m title s = some r :=
  exec_mono (c := Call.removeSong title) hle h

/-- C19 (search titles longer than 99 bytes).  Let the title searched for be
longer than `TITLE_LEN - 1 = 99` bytes.  On a reachable non-empty playlist
`removeSong` returns (given fuel for one round of the circle), reports that
the song was not found and leaves the state as it was.  In particular, after
`addSong` of such a title (at a fresh address `node`), `removeSong` of the
same title leaves the state as it was, `node` still live; and a `removeSong`
that frees `node` was called with the stored title, the first 99 bytes. -/
theorem removeSong_overlong (s : State) (l : List Ptr) (title : List Nat) (fuel : Nat)
    (node : Ptr) (hr : Reachable s) (hp : IsPlaylist s l)
    (hlong : TITLE_LEN - 1 < (cstr title).length) (hn : node ≠ NULL)
    (hfresh : s.heap node = none) (hf : l.length + 1 ≤ fuel) :
    (l ≠ [] → removeSong fuel title s = some (s, [Out.notFound (cstr title)])) ∧
    ∃ s1, addSong fuel node title s = some (s1, [Out.added (stored title)]) ∧
      IsPlaylist s1 (l ++ [node]) ∧ titleAt s1.heap node = stored title ∧
      removeSong fuel title s1 = some (s1, [Out.notFound (cstr title)]) ∧
      (∀ fuel1 t1 s2 o, removeSong fuel1 t1 s1 = some (s2, o) → s2.heap node = none →
        cstr t1 = stored title) := by
  have hnomatch : ∀ {s0 : State}, Reachable s0 → ∀ q, titleAt s0.heap q ≠ cstr title := by
    intro s0 hr0 q hq
    unfold titleAt at hq
    cases hn0 : s0.heap q with
    | none =>
      rw [hn0] at hq
      rw [← hq] at hlong
      simp at hlong
    | some n0 =>
      rw [hn0] at hq
      have := reachable_titles_bounded hr0 q n0 hn0
      simp only [] at hq
      rw [hq] at this
      omega
  refine ⟨fun hl => removeSong_notFound hp hl (fun q _ => hnomatch hr q) (by omega), ?_⟩
  obtain ⟨s1, h1, h2, h3, h4, -⟩ := addSong_spec hp hn hfresh title (show l.length ≤ fuel by omega)
  have hr1 : Reachable s1 := Reachable.step (Call.addSong node title) fuel hr (fun _ => hfresh) h1
  have ht : titleAt s1.heap node = stored title := by
    simp [titleAt, h3, cstr_stored, stored]
  refine ⟨s1, h1, h2, ht, ?_, ?_⟩
  · exact removeSong_notFound h2 (by simp) (fun q _ => hnomatch hr1 q) (by simpa using hf)
  · intro fuel1 t1 s2 o hrem hfreed
    have hrem1 := removeSong_mono (le_max_left fuel1 (l ++ [node]).length) hrem
    have hF : (l ++ [node]).length ≤ max fuel1 (l ++ [node]).length := le_max_right _ _
    have hlive : s1.heap node ≠ none := by rw [h3]; simp
    by_cases hex : ∃ q ∈ l ++ [node], titleAt s1.heap q = cstr t1
    · obtain ⟨pre, x, post, hsplit, hpre, hx⟩ := exists_first_match _ _ hex
      rw [hsplit] at h2 hF hrem1
      obtain ⟨s3, g1, -, g3, g4, -⟩ := removeSong_found h2 hpre hx hF
      rw [g1] at hrem1
      cases hrem1
      by_cases hnx : node = x
      · rw [← ht, hnx, hx]
      · exfalso
        have := g4 node hnx
        rw [hfreed, h3] at this
        simp at this
    · exfalso
      have hne : ∀ q ∈ l ++ [node], titleAt s1.heap q ≠ cstr t1 := fun q hq h => hex ⟨q, hq, h⟩
      rw [removeSong_notFound h2 (by simp) hne hF] at hrem1
      cases hrem1
      exact hlive hfreed

/-- Witness for C19: a title of 120 bytes and the playlist `[A, B, C]`. -/
theorem removeSong_overlong_witness :
    Reachable stateABC ∧ IsPlaylist stateABC [1, 2, 3] ∧
    TITLE_LEN - 1 < (cstr (List.replicate 120 65)).length ∧ (4 : Ptr) ≠ NULL ∧
    stateABC.heap 4 = none ∧ [1, 2, 3].length + 1 ≤ 4 ∧
    (([1, 2, 3] : List Ptr) ≠ [] →
      removeSong 4 (List.replicate 120 65) stateABC =
        some (stateABC, [Out.notFound (cstr (List.replicate 120 65))])) ∧
    ∃ s1, addSong 4 4 (List.replicate 120 65) stateABC =
        some (s1, [Out.added (stored (List.replicate 120 65))]) ∧
      IsPlaylist s1 ([1, 2, 3] ++ [4]) ∧
      titleAt s1.heap 4 = stored (List.replicate 120 65) ∧
      removeSong 4 (List.replicate 120 65) s1 =
        some (s1, [Out.notFound (cstr (List.replicate 120 65))]) ∧
      (∀ fuel1 t1 s2 o, removeSong fuel1 t1 s1 = some (s2, o) → s2.heap 4 = none →
        cstr t1 = stored (List.replicate 120 65)) :=
  ⟨reachable_stateAfter 3 _,
   isPlaylist_of_check (reachable_stateAfter 3 _) (by decide) (by decide) (by decide),
   by decide, by decide, by decide, by decide,
   removeSong_overlong stateABC [1, 2, 3] (List.replicate 120 65) 4 4
     (reachable_stateAfter 3 _)
     (isPlaylist_of_check (reachable_stateAfter 3 _) (by decide) (by decide) (by decide))
     (by decide) (by decide) (by decide) (by decide)⟩

/-- C20 (the cursor when another song is removed).  On a reachable state whose
head-order sequence is `pre ++ x :: post`, where `x` is the first song from
`head` with the title searched for and the cursor is on another song,
`removeSong` returns and removes `x`, and the cursor stays on the song it was
on, which stays live in the sequence `pre ++ post` with its title.  The title
of the cursor song is not restricted: it may be the title searched for. -/
theorem removeSong_keeps_cursor (s : State) (pre post : List Ptr) (x : Ptr)
    (title : List Nat) (fuel : Nat) (hr : Reachable s)
    (hp : IsPlaylist s (pre ++ x :: post)) (hc : s.current ≠ x)
    (hpre : ∀ p ∈ pre, titleAt s.heap p ≠ cstr title)
    (hx : titleAt s.heap x = cstr title) (hf : (pre ++ x :: post).length ≤ fuel) :
    ∃ s1, removeSong fuel title s = some (s1, [Out.removed (cstr title)]) ∧
      Reachable s1 ∧ IsPlaylist s1 (pre ++ post) ∧
      s1.current = s.current ∧ s1.current ∈ pre ++ post ∧ s1.heap s1.current ≠ none ∧
      titleAt s1.heap s1.current = titleAt s.heap s.current := by
  obtain ⟨s1, h1, h2, -, h4, h5⟩ := removeSong_found hp hpre hx hf
  rw [if_neg hc] at h5
  have hmem : s.current ∈ pre ++ post := by
    have := hp.current_in (by simp)
    simp only [List.mem_append, List.mem_cons] at this ⊢
    tauto
  refine ⟨s1, h1, Reachable.step (Call.removeSong title) fuel hr trivial h1, h2, h5,
    h5 ▸ hmem, ?_, ?_⟩
  · rw [h5]; exact (h2.live _).1 hmem
  · rw [h5]; exact IsPlaylist.titleAt_eq (h4 _ hc)

/-- Witness for C20: the playlist `[A, A, B]` with the cursor on the second
`A`; removing `A` removes the first one. -/
theorem removeSong_keeps_cursor_witness :
    Reachable stateAAB ∧ IsPlaylist stateAAB ([] ++ 1 :: [2, 3]) ∧ stateAAB.current ≠ 1 ∧
    (∀ p ∈ ([] : List Ptr), titleAt stateAAB.heap p ≠ cstr titleA) ∧
    titleAt stateAAB.heap 1 = cstr titleA ∧
    titleAt stateAAB.heap stateAAB.current = cstr titleA ∧
    ([] ++ 1 :: [2, 3] : List Ptr).length ≤ 3 ∧
    ∃ s1, removeSong 3 titleA stateAAB = some (s1, [Out.removed (cstr titleA)]) ∧
      Reachable s1 ∧ IsPlaylist s1 ([] ++ [2, 3]) ∧
      s1.current = stateAAB.current ∧ s1.current ∈ ([] ++ [2, 3] : List Ptr) ∧
      s1.heap s1.current ≠ none ∧
      titleAt s1.heap s1.current = titleAt stateAAB.heap stateAAB.current :=
  ⟨reachable_stateAfter 3 _,
   isPlaylist_of_check (reachable_stateAfter 3 _) (by decide) (by decide) (by decide),
   by decide, by decide, by decide, by decide, by decide,
   removeSong_keeps_cursor stateAAB [] [2, 3] 1 titleA 3 (reachable_stateAfter 3 _)
     (isPlaylist_of_check (reachable_stateAfter 3 _) (by decide) (by decide) (by decide))
     (by decide) (by decide) (by decide) (by decide)⟩

end Playlist
